import Mathlib

/-!
Verification of a crossword CSP solver.

The program parses a rectangular character grid into slots (maximal runs of
non-blocked cells of length at least 2), builds per-slot word domains from a
dictionary, and fills the grid by depth-first backtracking search with an
MRV slot-selection heuristic, consistency checking against the live grid,
apply/undo grid mutation, and an optional no-reuse constraint.

Modelling conventions: strings are lists of characters; the mutable grid is
a list of rows threaded explicitly through each operation; Python dicts are
association lists with dict-style insert (replace if present, else append,
preserving insertion order); the recursive search carries an explicit depth
budget (one unit per nesting level) which is proved sufficient, so the
budgeted function agrees with the unbounded recursion of the source.
Out-of-range grid reads return a default character and out-of-range writes
are no-ops; every grid access performed by the program is in bounds, so
this totalisation is never observed.
-/

namespace Crossword

/-- A word is a list of characters. -/
abbrev Word := List Char

/-- The mutable letter grid: a list of rows of characters. -/
abbrev Grid := List (List Char)

/-- Read the character at (r, c); out-of-range reads give a default. -/
def getCell (g : Grid) (r c : Nat) : Char :=
  ((g[r]?.getD [])[c]?).getD '#'

/-- Write a character at (r, c); out-of-range writes are no-ops. -/
def setCell (g : Grid) (r c : Nat) (ch : Char) : Grid :=
  g.set r ((g[r]?.getD []).set c ch)

/-- Coordinate (r, c) lies inside the grid. -/
def inBnd (g : Grid) (p : Nat × Nat) : Prop :=
  p.1 < g.length ∧ p.2 < (g[p.1]?.getD []).length

instance (g : Grid) (p : Nat × Nat) : Decidable (inBnd g p) := by
  unfold inBnd; infer_instance

/-- The characters of the grid read along a list of coordinates. -/
def readCells (g : Grid) (cells : List (Nat × Nat)) : Word :=
  cells.map fun p => getCell g p.1 p.2

/-- A slot: an integer id and the ordered list of its cell coordinates. -/
structure Slot where
  id : Nat
  cells : List (Nat × Nat)
deriving DecidableEq, Repr

/-- Number of cells of a slot (source: slot_length). -/
def slot_length (slot : Slot) : Nat := slot.cells.length

/-- Assignment: Python dict from slot id to word, as an ordered assoc list. -/
abbrev Assign := List (Nat × Word)

/-- Dict lookup. -/
def lookupA (a : Assign) (k : Nat) : Option Word :=
  (a.find? fun p => p.1 == k).map (·.2)

/-- Dict store: replace the value if the key is present, else append. -/
def insertA (a : Assign) (k : Nat) (v : Word) : Assign :=
  if (lookupA a k).isSome then a.map (fun p => if p.1 == k then (k, v) else p)
  else a ++ [(k, v)]

/-- Dict delete. -/
def eraseA (a : Assign) (k : Nat) : Assign :=
  a.filter fun p => !(p.1 == k)

/-- Dict values in insertion order. -/
def valuesA (a : Assign) : List Word := a.map (·.2)

/-- Domains: Python dict from slot id to word list, as an assoc list. -/
abbrev Domains := List (Nat × List Word)

/-- Domain lookup with empty default. -/
def lookupD (d : Domains) (k : Nat) : List Word :=
  ((d.find? fun p => p.1 == k).map (·.2)).getD []

/-- Domain store, dict semantics. -/
def insertD (d : Domains) (k : Nat) (v : List Word) : Domains :=
  if ((d.find? fun p => p.1 == k).isSome) then
    d.map (fun p => if p.1 == k then (k, v) else p)
  else d ++ [(k, v)]

/-- Python str.strip: drop leading and trailing whitespace. -/
def strip (w : Word) : Word :=
  ((w.dropWhile Char.isWhitespace).reverse.dropWhile Char.isWhitespace).reverse

/-- Python str.upper, character-wise. -/
def upper (w : Word) : Word := w.map Char.toUpper

/-- Consistency check (source: is_consistent): the word is compatible with
the letters already present in the grid, cell by cell over the zip of the
word with the slot's cells. -/
def is_consistent (word : Word) (slot : Slot) (g : Grid) : Bool :=
  (word.zip slot.cells).all fun p =>
    getCell g p.2.1 p.2.2 == '.' || getCell g p.2.1 p.2.2 == p.1

/-- Inner loop of apply_word: record the previous character of each cell,
then write the word's letter there; returns the undo record and the grid. -/
def applyCells : List (Char × (Nat × Nat)) → Grid → List (Nat × Nat × Char) × Grid
  | [], g => ([], g)
  | (ch, (r, c)) :: rest, g =>
    let old := getCell g r c
    let res := applyCells rest (setCell g r c ch)
    ((r, c, old) :: res.1, res.2)

/-- Write a word into the grid (source: apply_word); returns the list of
previous values for rollback together with the updated grid. -/
def apply_word (word : Word) (slot : Slot) (g : Grid) :
    List (Nat × Nat × Char) × Grid :=
  applyCells (word.zip slot.cells) g

/-- Roll back grid changes (source: undo). -/
def undo (prev_state : List (Nat × Nat × Char)) (g : Grid) : Grid :=
  prev_state.foldl (fun g e => setCell g e.1 e.2.1 e.2.2) g

/-! Basic lemmas about cells. -/

theorem getCell_setCell_ne (g : Grid) (r c : Nat) (ch : Char) (r' c' : Nat)
    (h : r' ≠ r ∨ c' ≠ c) :
    getCell (setCell g r c ch) r' c' = getCell g r' c' := by
  unfold getCell setCell
  rcases Decidable.em (r' = r) with hr | hr
  · subst hr
    have hc : c' ≠ c := h.resolve_left (fun hne => hne rfl)
    rw [List.getElem?_set]
    by_cases hlen : r' < g.length
    · rw [if_pos rfl, if_pos hlen]
      simp only [Option.getD_some]
      rw [List.getElem?_set_ne (fun he => hc he.symm)]
    · rw [if_pos rfl, if_neg hlen]
      simp only [Option.getD_none]
      rw [List.getElem?_eq_none (Nat.le_of_not_lt hlen)]
      rfl
  · rw [List.getElem?_set, if_neg (fun he => hr he.symm)]

theorem getCell_setCell_self (g : Grid) (r c : Nat) (ch : Char)
    (h : inBnd g (r, c)) :
    getCell (setCell g r c ch) r c = ch := by
  obtain ⟨h1, h2⟩ := h
  unfold getCell setCell
  rw [List.getElem?_set, if_pos rfl, if_pos h1]
  simp only [Option.getD_some]
  rw [List.getElem?_set_self h2]
  rfl

theorem length_setCell (g : Grid) (r c : Nat) (ch : Char) :
    (setCell g r c ch).length = g.length := by
  simp [setCell]

theorem rowlen_setCell (g : Grid) (r c : Nat) (ch : Char) (i : Nat) :
    ((setCell g r c ch)[i]?.getD []).length = (g[i]?.getD []).length := by
  unfold setCell
  rcases Decidable.em (i = r) with hi | hi
  · subst hi
    rw [List.getElem?_set, if_pos rfl]
    by_cases hlen : i < g.length
    · simp [if_pos hlen]
    · simp only [if_neg hlen, Option.getD_none]
      rw [List.getElem?_eq_none (Nat.le_of_not_lt hlen)]
      rfl
  · rw [List.getElem?_set, if_neg (fun he => hi he.symm)]

theorem inBnd_setCell (g : Grid) (r c : Nat) (ch : Char) (p : Nat × Nat) :
    inBnd (setCell g r c ch) p ↔ inBnd g p := by
  unfold inBnd
  rw [length_setCell, rowlen_setCell]

/-! Characterisation of the consistency check (claim C3). -/

theorem is_consistent_iff_aux (g : Grid) :
    ∀ (word : Word) (cells : List (Nat × Nat)), word.length = cells.length →
    (((word.zip cells).all fun p =>
        getCell g p.2.1 p.2.2 == '.' || getCell g p.2.1 p.2.2 == p.1) = true ↔
      ∀ i p ch, cells.get? i = some p → word.get? i = some ch →
        getCell g p.1 p.2 = '.' ∨ getCell g p.1 p.2 = ch)
  | [], [], _ => by
    constructor
    · intro _ i p ch hp hc
      simp at hp
    · intro _
      rfl
  | [], q :: cs, h => by simp at h
  | w :: ws, [], h => by simp at h
  | w :: ws, q :: cs, h => by
    have hlen : ws.length = cs.length := by
      simpa using h
    have ih := is_consistent_iff_aux g ws cs hlen
    simp only [List.zip_cons_cons, List.all_cons, Bool.and_eq_true, ih]
    constructor
    · rintro ⟨h0, hrest⟩ i p ch hp hc
      cases i with
      | zero =>
        simp only [List.get?_cons_zero, Option.some.injEq] at hp hc
        subst hp; subst hc
        rcases Bool.or_eq_true _ _ |>.mp h0 with h' | h'
        · exact Or.inl (by simpa using h')
        · exact Or.inr (by simpa using h')
      | succ j =>
        exact hrest j p ch (by simpa using hp) (by simpa using hc)
    · intro hall
      refine ⟨?_, fun i p ch hp hc => hall (i + 1) p ch (by simpa using hp) (by simpa using hc)⟩
      rcases hall 0 q w rfl rfl with h' | h'
      · simp [h']
      · simp [h']

/-- Claim C3: for a word whose length equals the slot's cell count,
is_consistent returns true iff at every cell of the slot the grid's current
character is either the open marker or the corresponding letter of the word. -/
theorem C3_is_consistent_correct (word : Word) (slot : Slot) (g : Grid)
    (h : word.length = slot.cells.length) :
    is_consistent word slot g = true ↔
      ∀ i p ch, slot.cells.get? i = some p → word.get? i = some ch →
        getCell g p.1 p.2 = '.' ∨ getCell g p.1 p.2 = ch := by
  unfold is_consistent
  exact is_consistent_iff_aux g word slot.cells h

/-- Witness for C3 at a concrete input. -/
theorem C3_is_consistent_correct_witness :
    (['A', 'T'] : Word).length = (Slot.mk 0 [(0, 0), (0, 1)]).cells.length ∧
      (is_consistent ['A', 'T'] (Slot.mk 0 [(0, 0), (0, 1)]) [['.', 'T']] = true ↔
        ∀ i p ch, (Slot.mk 0 [(0, 0), (0, 1)]).cells.get? i = some p →
          (['A', 'T'] : Word).get? i = some ch →
          getCell [['.', 'T']] p.1 p.2 = '.' ∨ getCell [['.', 'T']] p.1 p.2 = ch) :=
  ⟨by decide, C3_is_consistent_correct ['A', 'T'] (Slot.mk 0 [(0, 0), (0, 1)]) [['.', 'T']]
    (by decide)⟩

/-! Algebra of setCell: identity, overwrite, and commutation. -/

theorem set_getD_self {α : Type} (l : List α) (c : Nat) (d : α) :
    l.set c ((l[c]?).getD d) = l := by
  by_cases hc : c < l.length
  · rw [List.getElem?_eq_getElem hc]
    apply List.ext_get?
    intro j
    rw [List.get?_eq_getElem?, List.get?_eq_getElem?, List.getElem?_set]
    rcases Decidable.em (c = j) with hj | hj
    · subst hj
      rw [if_pos rfl, if_pos hc, List.getElem?_eq_getElem hc]
      rfl
    · rw [if_neg hj]
  · exact List.set_eq_of_length_le (Nat.le_of_not_lt hc)

theorem setCell_getCell_self (g : Grid) (r c : Nat) :
    setCell g r c (getCell g r c) = g := by
  unfold setCell getCell
  rw [set_getD_self]
  exact set_getD_self g r []

theorem setCell_setCell_self (g : Grid) (r c : Nat) (a b : Char) :
    setCell (setCell g r c a) r c b = setCell g r c b := by
  unfold setCell
  by_cases hr : r < g.length
  · rw [List.getElem?_set, if_pos rfl, if_pos hr]
    simp only [Option.getD_some]
    rw [List.set_set, List.set_set]
  · have hle : g.length ≤ r := Nat.le_of_not_lt hr
    have e1 : ∀ row : List Char, g.set r row = g :=
      fun _ => List.set_eq_of_length_le hle
    simp only [e1]

theorem setCell_comm (g : Grid) (r c r' c' : Nat) (a b : Char)
    (h : (r, c) ≠ (r', c')) :
    setCell (setCell g r c a) r' c' b = setCell (setCell g r' c' b) r c a := by
  unfold setCell
  rcases Decidable.em (r = r') with hr | hr
  · subst hr
    have hc : c ≠ c' := fun hc => h (by rw [hc])
    by_cases hlen : r < g.length
    · rw [List.getElem?_set, if_pos rfl, if_pos hlen,
        List.getElem?_set, if_pos rfl, if_pos hlen]
      simp only [Option.getD_some]
      rw [List.set_set, List.set_set, List.set_comm _ _ _ hc]
    · have hle : g.length ≤ r := Nat.le_of_not_lt hlen
      have e1 : ∀ row : List Char, g.set r row = g :=
        fun _ => List.set_eq_of_length_le hle
      simp only [e1]
  · rw [List.getElem?_set, if_neg hr, List.getElem?_set,
      if_neg (fun he => hr he.symm), List.set_comm _ _ _ (fun he => hr he)]

/-! Structure of the undo record and of the applied grid. -/

theorem applyCells_fst_coords :
    ∀ (l : List (Char × (Nat × Nat))) (g : Grid),
      (applyCells l g).1.map (fun t => (t.1, t.2.1)) = l.map (·.2)
  | [], _ => rfl
  | (ch, (r, c)) :: rest, g => by
    simp only [applyCells, List.map_cons]
    rw [applyCells_fst_coords rest (setCell g r c ch)]

theorem applyCells_snd_not_mem :
    ∀ (l : List (Char × (Nat × Nat))) (g : Grid) (r c : Nat),
      (r, c) ∉ l.map (·.2) →
      getCell (applyCells l g).2 r c = getCell g r c
  | [], _, _, _, _ => rfl
  | (ch, (r', c')) :: rest, g, r, c, h => by
    simp only [List.map_cons, List.mem_cons, not_or] at h
    obtain ⟨h1, h2⟩ := h
    simp only [applyCells]
    rw [applyCells_snd_not_mem rest _ r c h2]
    apply getCell_setCell_ne
    by_contra hcon
    push_neg at hcon
    exact h1 (by rw [hcon.1, hcon.2])

theorem applyCells_setCell_comm :
    ∀ (l : List (Char × (Nat × Nat))) (g : Grid) (r c : Nat) (ch : Char),
      (r, c) ∉ l.map (·.2) →
      applyCells l (setCell g r c ch) =
        ((applyCells l g).1, setCell (applyCells l g).2 r c ch)
  | [], _, _, _, _, _ => rfl
  | (ch', (r', c')) :: rest, g, r, c, ch, h => by
    simp only [List.map_cons, List.mem_cons, not_or] at h
    obtain ⟨h1, h2⟩ := h
    have hne : (r', c') ≠ (r, c) := fun he => h1 (by rw [he])
    simp only [applyCells]
    rw [getCell_setCell_ne g r c ch r' c'
      (by by_contra hcon; push_neg at hcon; exact hne (by rw [hcon.1, hcon.2]))]
    rw [setCell_comm g r c r' c' ch ch' (fun he => h1 (by
      injection he with e1 e2; rw [e1, e2]))]
    rw [applyCells_setCell_comm rest (setCell g r' c' ch') r c ch h2]

theorem undo_setCell_comm :
    ∀ (P : List (Nat × Nat × Char)) (g : Grid) (r c : Nat) (x : Char),
      (r, c) ∉ P.map (fun t => (t.1, t.2.1)) →
      undo P (setCell g r c x) = setCell (undo P g) r c x
  | [], _, _, _, _, _ => rfl
  | (r', c', y) :: P', g, r, c, x, h => by
    simp only [List.map_cons, List.mem_cons, not_or] at h
    obtain ⟨h1, h2⟩ := h
    simp only [undo, List.foldl_cons]
    rw [setCell_comm g r c r' c' x y (fun he => h1 (by
      injection he with e1 e2; rw [e1, e2]))]
    exact undo_setCell_comm P' (setCell g r' c' y) r c x h2

/-- Central restoration lemma: applying letters to pairwise-distinct cells
and then replaying the undo record restores the original grid. -/
theorem undo_applyCells :
    ∀ (l : List (Char × (Nat × Nat))) (g : Grid),
      (l.map (·.2)).Nodup →
      undo (applyCells l g).1 (applyCells l g).2 = g
  | [], _, _ => rfl
  | (ch, (r, c)) :: rest, g, h => by
    simp only [List.map_cons, List.nodup_cons] at h
    obtain ⟨h1, h2⟩ := h
    simp only [applyCells]
    rw [applyCells_setCell_comm rest g r c ch h1]
    simp only [undo, List.foldl_cons]
    show undo (applyCells rest g).1
      (setCell (setCell (applyCells rest g).2 r c ch) r c (getCell g r c)) = g
    rw [setCell_setCell_self]
    rw [undo_setCell_comm (applyCells rest g).1 (applyCells rest g).2 r c
      (getCell g r c) (by rw [applyCells_fst_coords]; exact h1)]
    rw [undo_applyCells rest g h2]
    exact setCell_getCell_self g r c

/-- Second components of a zip form the matching prefix of the second list. -/
theorem zip_map_snd :
    ∀ (l₁ : List Char) (l₂ : List (Nat × Nat)),
      (l₁.zip l₂).map (·.2) = l₂.take l₁.length
  | [], _ => by simp
  | _ :: _, [] => by simp
  | a :: l₁, b :: l₂ => by
    simp only [List.zip_cons_cons, List.map_cons, List.length_cons, List.take_succ_cons]
    rw [zip_map_snd l₁ l₂]

/-- Zipping ignores the part of the second list beyond the first's length. -/
theorem zip_take_right :
    ∀ {α β : Type} (l₁ : List α) (l₂ : List β),
      l₁.zip (l₂.take l₁.length) = l₁.zip l₂
  | _, _, [], _ => by simp
  | _, _, _ :: _, [] => by simp
  | _, _, a :: l₁, b :: l₂ => by
    simp only [List.length_cons, List.take_succ_cons, List.zip_cons_cons]
    rw [zip_take_right l₁ l₂]

/-- Claim C4, counterexample: for a slot listing the same cell twice, the
undo record is replayed in order, so apply followed by undo does not restore
the grid. -/
theorem C4_counterexample :
    undo (apply_word ['A', 'B'] (Slot.mk 0 [(0, 0), (0, 0)]) [['.']]).1
        (apply_word ['A', 'B'] (Slot.mk 0 [(0, 0), (0, 0)]) [['.']]).2 ≠
      [['.']] := by
  decide

/-- Shared restoration fact: apply_word then undo is the identity on the
grid for any slot with pairwise-distinct cells. -/
theorem apply_word_undo (word : Word) (slot : Slot) (g : Grid)
    (h : slot.cells.Nodup) :
    undo (apply_word word slot g).1 (apply_word word slot g).2 = g := by
  unfold apply_word
  apply undo_applyCells
  rw [zip_map_snd]
  exact h.sublist (List.take_sublist _ _)

/-- Claim C4, amended: for every grid and word and every slot whose cells are
pairwise distinct (as all slots produced by parse_grid are), apply_word
followed by undo on the returned record restores every cell of the grid. -/
theorem C4_apply_undo_restores (word : Word) (slot : Slot) (g : Grid)
    (h : slot.cells.Nodup) :
    undo (apply_word word slot g).1 (apply_word word slot g).2 = g :=
  apply_word_undo word slot g h

/-- Witness for the amended C4 at a concrete input. -/
theorem C4_apply_undo_restores_witness :
    (Slot.mk 0 [(0, 0), (0, 1)]).cells.Nodup ∧
      undo (apply_word ['N', 'O'] (Slot.mk 0 [(0, 0), (0, 1)]) [['.', 'X']]).1
          (apply_word ['N', 'O'] (Slot.mk 0 [(0, 0), (0, 1)]) [['.', 'X']]).2 =
        [['.', 'X']] :=
  ⟨by decide,
    C4_apply_undo_restores ['N', 'O'] (Slot.mk 0 [(0, 0), (0, 1)]) [['.', 'X']]
      (by decide)⟩

/-- Claim C10: a word strictly shorter than its slot is processed only on the
first length-of-word cells: the consistency check coincides with the check
against the truncated slot (in particular the empty word is consistent with
every slot), the undo record lists exactly those cells, and every coordinate
outside them keeps its character. -/
theorem C10_short_word_safe (word : Word) (slot : Slot) (g : Grid)
    (h : word.length < slot.cells.length) :
    is_consistent word slot g =
        is_consistent word (Slot.mk slot.id (slot.cells.take word.length)) g ∧
      (∀ (slot' : Slot) (g' : Grid), is_consistent [] slot' g' = true) ∧
      (apply_word word slot g).1.map (fun t => (t.1, t.2.1)) =
        slot.cells.take word.length ∧
      ∀ r c, (r, c) ∉ slot.cells.take word.length →
        getCell (apply_word word slot g).2 r c = getCell g r c := by
  refine ⟨?_, ?_, ?_, ?_⟩
  · unfold is_consistent
    rw [show (Slot.mk slot.id (slot.cells.take word.length)).cells =
      slot.cells.take word.length from rfl]
    rw [zip_take_right]
  · intro slot' g'
    rfl
  · unfold apply_word
    rw [applyCells_fst_coords, zip_map_snd]
  · intro r c hnot
    unfold apply_word
    apply applyCells_snd_not_mem
    rw [zip_map_snd]
    exact hnot

/-- Witness for C10 at a concrete input. -/
theorem C10_short_word_safe_witness :
    (['A'] : Word).length < (Slot.mk 0 [(0, 0), (0, 1), (0, 2)]).cells.length ∧
      (is_consistent ['A'] (Slot.mk 0 [(0, 0), (0, 1), (0, 2)]) [['.', '.', '.']] =
          is_consistent ['A']
            (Slot.mk 0 ((Slot.mk 0 [(0, 0), (0, 1), (0, 2)]).cells.take
              (['A'] : Word).length)) [['.', '.', '.']] ∧
        (∀ (slot' : Slot) (g' : Grid), is_consistent [] slot' g' = true) ∧
        (apply_word ['A'] (Slot.mk 0 [(0, 0), (0, 1), (0, 2)]) [['.', '.', '.']]).1.map
            (fun t => (t.1, t.2.1)) =
          (Slot.mk 0 [(0, 0), (0, 1), (0, 2)]).cells.take (['A'] : Word).length ∧
        ∀ r c,
          (r, c) ∉ (Slot.mk 0 [(0, 0), (0, 1), (0, 2)]).cells.take (['A'] : Word).length →
          getCell (apply_word ['A'] (Slot.mk 0 [(0, 0), (0, 1), (0, 2)])
            [['.', '.', '.']]).2 r c =
            getCell [['.', '.', '.']] r c) :=
  ⟨by decide,
    C10_short_word_safe ['A'] (Slot.mk 0 [(0, 0), (0, 1), (0, 2)]) [['.', '.', '.']]
      (by decide)⟩

/-! Grid parsing (source: parse_grid). -/

/-- Inner while loop of the horizontal scan: length of the run of
non-blocked cells starting at column c in row r. The loop advances the
column by one each step, so the iteration bound w - c passed by runLenH is
exact: every unfolding of the loop is mirrored by one constructor step. -/
def runLenHGo (g : Grid) (w r : Nat) : Nat → Nat → Nat
  | 0, _ => 0
  | fuel + 1, c =>
    if c < w ∧ getCell g r c ≠ '#' then runLenHGo g w r fuel (c + 1) + 1 else 0

/-- Length of the horizontal run of non-blocked cells starting at (r, c). -/
def runLenH (g : Grid) (w r c : Nat) : Nat := runLenHGo g w r (w - c) c

/-- Outer while loop of the horizontal scan over row r. Each iteration
advances the column by at least one, so any bound of at least w - c
iterations is enough; hScanRow passes w (see hScanRowGo_bound_irrel). -/
def hScanRowGo (g : Grid) (w r : Nat) : Nat → Nat → List (List (Nat × Nat))
  | 0, _ => []
  | fuel + 1, c =>
    if c < w then
      if getCell g r c ≠ '#' then
        if c = 0 ∨ getCell g r (c - 1) = '#' then
          let L := runLenH g w r c
          let rest := hScanRowGo g w r fuel (c + L)
          if L > 1 then ((List.range L).map fun i => (r, c + i)) :: rest else rest
        else hScanRowGo g w r fuel (c + 1)
      else hScanRowGo g w r fuel (c + 1)
    else []

/-- Horizontal scan of row r: cell lists of the maximal non-blocked runs of
length at least 2, left to right. -/
def hScanRow (g : Grid) (w r : Nat) : List (List (Nat × Nat)) :=
  hScanRowGo g w r w 0

/-- Inner while loop of the vertical scan. -/
def runLenVGo (g : Grid) (h c : Nat) : Nat → Nat → Nat
  | 0, _ => 0
  | fuel + 1, r =>
    if r < h ∧ getCell g r c ≠ '#' then runLenVGo g h c fuel (r + 1) + 1 else 0

/-- Length of the vertical run of non-blocked cells starting at (r, c). -/
def runLenV (g : Grid) (h c r : Nat) : Nat := runLenVGo g h c (h - r) r

/-- Outer while loop of the vertical scan over column c. -/
def vScanColGo (g : Grid) (h c : Nat) : Nat → Nat → List (List (Nat × Nat))
  | 0, _ => []
  | fuel + 1, r =>
    if r < h then
      if getCell g r c ≠ '#' then
        if r = 0 ∨ getCell g (r - 1) c = '#' then
          let L := runLenV g h c r
          let rest := vScanColGo g h c fuel (r + L)
          if L > 1 then ((List.range L).map fun i => (r + i, c)) :: rest else rest
        else vScanColGo g h c fuel (r + 1)
      else vScanColGo g h c fuel (r + 1)
    else []

/-- Vertical scan of column c: cell lists of the maximal non-blocked runs of
length at least 2, top to bottom. -/
def vScanCol (g : Grid) (h c : Nat) : List (List (Nat × Nat)) :=
  vScanColGo g h c h 0

theorem runLenHGo_pos (g : Grid) (w r : Nat) (fuel c : Nat) (h0 : 0 < fuel)
    (h1 : c < w) (h2 : getCell g r c ≠ '#') : 0 < runLenHGo g w r fuel c := by
  cases fuel with
  | zero => omega
  | succ fuel =>
    simp only [runLenHGo, if_pos (And.intro h1 h2)]
    omega

theorem runLenVGo_pos (g : Grid) (hh c : Nat) (fuel r : Nat) (h0 : 0 < fuel)
    (h1 : r < hh) (h2 : getCell g r c ≠ '#') : 0 < runLenVGo g hh c fuel r := by
  cases fuel with
  | zero => omega
  | succ fuel =>
    simp only [runLenVGo, if_pos (And.intro h1 h2)]
    omega

/-- The iteration bound of the outer horizontal scan loop is irrelevant as
long as it covers the remaining columns, so passing w at column 0 computes
the full scan of the source's while loop. -/
theorem hScanRowGo_bound_irrel (g : Grid) (w r : Nat) :
    ∀ fuel fuel' c, w - c ≤ fuel → w - c ≤ fuel' →
      hScanRowGo g w r fuel c = hScanRowGo g w r fuel' c := by
  intro fuel
  induction fuel with
  | zero =>
    intro fuel' c h h'
    cases fuel' with
    | zero => rfl
    | succ fuel' =>
      have hcw : ¬ c < w := by omega
      simp only [hScanRowGo, if_neg hcw]
  | succ fuel ih =>
    intro fuel' c h h'
    cases fuel' with
    | zero =>
      have hcw : ¬ c < w := by omega
      simp only [hScanRowGo, if_neg hcw]
    | succ fuel' =>
      simp only [hScanRowGo]
      by_cases hcw : c < w
      · simp only [if_pos hcw]
        by_cases hch : getCell g r c ≠ '#'
        · simp only [if_pos hch]
          by_cases hst : c = 0 ∨ getCell g r (c - 1) = '#'
          · simp only [if_pos hst]
            have hL : 0 < runLenH g w r c := by
              apply runLenHGo_pos g w r (w - c) c (by omega) hcw hch
            rw [ih fuel' (c + runLenH g w r c) (by omega) (by omega)]
          · simp only [if_neg hst]
            exact ih fuel' (c + 1) (by omega) (by omega)
        · simp only [if_neg hch]
          exact ih fuel' (c + 1) (by omega) (by omega)
      · simp only [if_neg hcw]

/-- Bound irrelevance for the vertical scan loop. -/
theorem vScanColGo_bound_irrel (g : Grid) (hh c : Nat) :
    ∀ fuel fuel' r, hh - r ≤ fuel → hh - r ≤ fuel' →
      vScanColGo g hh c fuel r = vScanColGo g hh c fuel' r := by
  intro fuel
  induction fuel with
  | zero =>
    intro fuel' r h h'
    cases fuel' with
    | zero => rfl
    | succ fuel' =>
      have hrh : ¬ r < hh := by omega
      simp only [vScanColGo, if_neg hrh]
  | succ fuel ih =>
    intro fuel' r h h'
    cases fuel' with
    | zero =>
      have hrh : ¬ r < hh := by omega
      simp only [vScanColGo, if_neg hrh]
    | succ fuel' =>
      simp only [vScanColGo]
      by_cases hrh : r < hh
      · simp only [if_pos hrh]
        by_cases hch : getCell g r c ≠ '#'
        · simp only [if_pos hch]
          by_cases hst : r = 0 ∨ getCell g (r - 1) c = '#'
          · simp only [if_pos hst]
            have hL : 0 < runLenV g hh c r := by
              apply runLenVGo_pos g hh c (hh - r) r (by omega) hrh hch
            rw [ih fuel' (r + runLenV g hh c r) (by omega) (by omega)]
          · simp only [if_neg hst]
            exact ih fuel' (r + 1) (by omega) (by omega)
        · simp only [if_neg hch]
          exact ih fuel' (r + 1) (by omega) (by omega)
      · simp only [if_neg hrh]

instance {ε α : Type} [DecidableEq ε] [DecidableEq α] : DecidableEq (Except ε α)
  | .error e, .error f =>
    if h : e = f then .isTrue (by rw [h]) else .isFalse (by intro hc; cases hc; exact h rfl)
  | .error _, .ok _ => .isFalse (by intro hc; cases hc)
  | .ok _, .error _ => .isFalse (by intro hc; cases hc)
  | .ok a, .ok b =>
    if h : a = b then .isTrue (by rw [h]) else .isFalse (by intro hc; cases hc; exact h rfl)

/-- Parse the raw grid (source: parse_grid): validate shape, then collect
horizontal and vertical slots in discovery order with sequential ids. -/
def parse_grid (raw : List (List Char)) : Except String (Grid × List Slot) :=
  match raw with
  | [] => .error "empty grid"
  | r0 :: _ =>
    let w := r0.length
    if raw.all fun row => row.length == w then
      let grid : Grid := raw
      let h := raw.length
      let runs :=
        ((List.range h).map fun r => hScanRow grid w r).flatten ++
          ((List.range w).map fun c => vScanCol grid h c).flatten
      .ok (grid, runs.enum.map fun p => Slot.mk p.1 p.2)
    else .error "rows must have equal length"

/-- A cell that does not read as the blocked marker is inside the grid
(out-of-range reads return the blocked marker by definition). -/
theorem inBnd_of_getCell_ne (g : Grid) (r c : Nat) (h : getCell g r c ≠ '#') :
    inBnd g (r, c) := by
  unfold getCell at h
  unfold inBnd
  by_cases hr : r < g.length
  · refine ⟨hr, ?_⟩
    by_cases hc : c < (g[r]?.getD []).length
    · exact hc
    · exfalso
      apply h
      rw [List.getElem?_eq_none (Nat.le_of_not_lt hc)]
      rfl
  · exfalso
    apply h
    rw [List.getElem?_eq_none (Nat.le_of_not_lt hr)]
    rfl

theorem runLenHGo_spec (g : Grid) (w r : Nat) :
    ∀ fuel c, w - c ≤ fuel → c ≤ w →
      (∀ i, i < runLenHGo g w r fuel c → getCell g r (c + i) ≠ '#') ∧
      c + runLenHGo g w r fuel c ≤ w ∧
      (c + runLenHGo g w r fuel c = w ∨ getCell g r (c + runLenHGo g w r fuel c) = '#') := by
  intro fuel
  induction fuel with
  | zero =>
    intro c h1 h2
    have : c = w := by omega
    subst this
    exact ⟨fun i hi => absurd hi (by simp [runLenHGo]), by simp [runLenHGo], by simp [runLenHGo]⟩
  | succ fuel ih =>
    intro c h1 h2
    by_cases hc : c < w ∧ getCell g r c ≠ '#'
    · have heq : runLenHGo g w r (fuel + 1) c = runLenHGo g w r fuel (c + 1) + 1 := by
        simp only [runLenHGo, if_pos hc]
      obtain ⟨ih1, ih2, ih3⟩ := ih (c + 1) (by omega) (by omega)
      refine ⟨?_, by omega, ?_⟩
      · intro i hi
        rw [heq] at hi
        cases i with
        | zero => exact hc.2
        | succ j =>
          have := ih1 j (by omega)
          rw [show c + (j + 1) = c + 1 + j by omega]
          exact this
      · rw [heq, show c + (runLenHGo g w r fuel (c + 1) + 1) =
          c + 1 + runLenHGo g w r fuel (c + 1) by omega]
        exact ih3
    · have heq : runLenHGo g w r (fuel + 1) c = 0 := by
        simp only [runLenHGo, if_neg hc]
      rw [heq]
      rw [Decidable.not_and_iff_or_not] at hc
      refine ⟨fun i hi => by omega, by omega, ?_⟩
      rcases hc with hc | hc
      · exact Or.inl (by omega)
      · exact Or.inr (by simpa using hc)

theorem runLenVGo_spec (g : Grid) (hh c : Nat) :
    ∀ fuel r, hh - r ≤ fuel → r ≤ hh →
      (∀ i, i < runLenVGo g hh c fuel r → getCell g (r + i) c ≠ '#') ∧
      r + runLenVGo g hh c fuel r ≤ hh ∧
      (r + runLenVGo g hh c fuel r = hh ∨ getCell g (r + runLenVGo g hh c fuel r) c = '#') := by
  intro fuel
  induction fuel with
  | zero =>
    intro r h1 h2
    have : r = hh := by omega
    subst this
    exact ⟨fun i hi => absurd hi (by simp [runLenVGo]), by simp [runLenVGo], by simp [runLenVGo]⟩
  | succ fuel ih =>
    intro r h1 h2
    by_cases hc : r < hh ∧ getCell g r c ≠ '#'
    · have heq : runLenVGo g hh c (fuel + 1) r = runLenVGo g hh c fuel (r + 1) + 1 := by
        simp only [runLenVGo, if_pos hc]
      obtain ⟨ih1, ih2, ih3⟩ := ih (r + 1) (by omega) (by omega)
      refine ⟨?_, by omega, ?_⟩
      · intro i hi
        rw [heq] at hi
        cases i with
        | zero => exact hc.2
        | succ j =>
          have := ih1 j (by omega)
          rw [show r + (j + 1) = r + 1 + j by omega]
          exact this
      · rw [heq, show r + (runLenVGo g hh c fuel (r + 1) + 1) =
          r + 1 + runLenVGo g hh c fuel (r + 1) by omega]
        exact ih3
    · have heq : runLenVGo g hh c (fuel + 1) r = 0 := by
        simp only [runLenVGo, if_neg hc]
      rw [heq]
      rw [Decidable.not_and_iff_or_not] at hc
      refine ⟨fun i hi => by omega, by omega, ?_⟩
      rcases hc with hc | hc
      · exact Or.inl (by omega)
      · exact Or.inr (by simpa using hc)

/-- A maximal horizontal run of non-blocked cells of length at least 2 in a
grid of row width w: contiguous, in reading order, not extendable. -/
def isHRun (g : Grid) (w : Nat) (cells : List (Nat × Nat)) : Prop :=
  ∃ r c0 L, cells = (List.range L).map (fun i => (r, c0 + i)) ∧ 2 ≤ L ∧
    c0 + L ≤ w ∧
    (∀ i, i < L → getCell g r (c0 + i) ≠ '#') ∧
    (c0 = 0 ∨ getCell g r (c0 - 1) = '#') ∧
    (c0 + L = w ∨ getCell g r (c0 + L) = '#')

/-- A maximal vertical run of non-blocked cells of length at least 2 in a
grid of height h. -/
def isVRun (g : Grid) (h : Nat) (cells : List (Nat × Nat)) : Prop :=
  ∃ c r0 L, cells = (List.range L).map (fun i => (r0 + i, c)) ∧ 2 ≤ L ∧
    r0 + L ≤ h ∧
    (∀ i, i < L → getCell g (r0 + i) c ≠ '#') ∧
    (r0 = 0 ∨ getCell g (r0 - 1) c = '#') ∧
    (r0 + L = h ∨ getCell g (r0 + L) c = '#')

theorem hScanRowGo_mem (g : Grid) (w r : Nat) :
    ∀ fuel c cells, cells ∈ hScanRowGo g w r fuel c → isHRun g w cells := by
  intro fuel
  induction fuel with
  | zero =>
    intro c cells hm
    simp [hScanRowGo] at hm
  | succ fuel ih =>
    intro c cells hm
    simp only [hScanRowGo] at hm
    by_cases hcw : c < w
    · rw [if_pos hcw] at hm
      by_cases hch : getCell g r c ≠ '#'
      · rw [if_pos hch] at hm
        by_cases hst : c = 0 ∨ getCell g r (c - 1) = '#'
        · rw [if_pos hst] at hm
          obtain ⟨hs1, hs2, hs3⟩ := runLenHGo_spec g w r (w - c) c (le_refl _) hcw.le
          by_cases hL : runLenH g w r c > 1
          · rw [if_pos hL] at hm
            rcases List.mem_cons.mp hm with hm | hm
            · exact ⟨r, c, runLenH g w r c, hm, by omega, hs2, hs1, hst, hs3⟩
            · exact ih _ cells hm
          · rw [if_neg hL] at hm
            exact ih _ cells hm
        · rw [if_neg hst] at hm
          exact ih _ cells hm
      · rw [if_neg hch] at hm
        exact ih _ cells hm
    · rw [if_neg hcw] at hm
      simp at hm

theorem vScanColGo_mem (g : Grid) (hh c : Nat) :
    ∀ fuel r cells, cells ∈ vScanColGo g hh c fuel r → isVRun g hh cells := by
  intro fuel
  induction fuel with
  | zero =>
    intro r cells hm
    simp [vScanColGo] at hm
  | succ fuel ih =>
    intro r cells hm
    simp only [vScanColGo] at hm
    by_cases hrh : r < hh
    · rw [if_pos hrh] at hm
      by_cases hch : getCell g r c ≠ '#'
      · rw [if_pos hch] at hm
        by_cases hst : r = 0 ∨ getCell g (r - 1) c = '#'
        · rw [if_pos hst] at hm
          obtain ⟨hs1, hs2, hs3⟩ := runLenVGo_spec g hh c (hh - r) r (le_refl _) hrh.le
          by_cases hL : runLenV g hh c r > 1
          · rw [if_pos hL] at hm
            rcases List.mem_cons.mp hm with hm | hm
            · exact ⟨c, r, runLenV g hh c r, hm, by omega, hs2, hs1, hst, hs3⟩
            · exact ih _ cells hm
          · rw [if_neg hL] at hm
            exact ih _ cells hm
        · rw [if_neg hst] at hm
          exact ih _ cells hm
      · rw [if_neg hch] at hm
        exact ih _ cells hm
    · rw [if_neg hrh] at hm
      simp at hm

/-- Master lemma about a successful parse: the letter grid is the raw grid,
slot ids are 0, 1, ... in discovery order, and every slot's cell list is a
maximal horizontal or vertical run. -/
theorem parse_grid_ok (raw : List (List Char)) (g : Grid) (slots : List Slot)
    (hp : parse_grid raw = .ok (g, slots)) :
    g = raw ∧ raw ≠ [] ∧
    (∀ row ∈ raw, row.length = (raw.head?.getD []).length) ∧
    slots.map (·.id) = List.range slots.length ∧
    (∀ s ∈ slots, isHRun g ((raw.head?.getD []).length) s.cells ∨
      isVRun g g.length s.cells) := by
  match raw with
  | [] => simp [parse_grid] at hp
  | r0 :: rest =>
    simp only [parse_grid] at hp
    by_cases hall : (r0 :: rest).all fun row => row.length == r0.length
    · rw [if_pos hall] at hp
      have hg : g = r0 :: rest := by
        injection hp with hp'
        exact (congrArg Prod.fst hp').symm
      have hslots : slots =
          (((List.range (r0 :: rest).length).map fun r => hScanRow (r0 :: rest) r0.length r).flatten ++
            ((List.range r0.length).map fun c => vScanCol (r0 :: rest) (r0 :: rest).length c).flatten).enum.map
            (fun p => Slot.mk p.1 p.2) := by
        injection hp with hp'
        exact (congrArg Prod.snd hp').symm
      refine ⟨hg, by simp, ?_, ?_, ?_⟩
      · intro row hrow
        have := List.all_eq_true.mp hall row hrow
        simpa using this
      · rw [hslots, List.map_map, List.length_map]
        have hcomp : ((fun s : Slot => s.id) ∘ fun p : Nat × List (Nat × Nat) =>
            Slot.mk p.1 p.2) = Prod.fst := rfl
        rw [hcomp, List.enum_map_fst, List.enum_length]
      · intro s hs
        rw [hslots] at hs
        obtain ⟨p, hpmem, hpe⟩ := List.mem_map.mp hs
        have hcells : s.cells = p.2 := by rw [← hpe]
        have hmem2 : p.2 ∈ (((List.range (r0 :: rest).length).map fun r =>
            hScanRow (r0 :: rest) r0.length r).flatten ++
            ((List.range r0.length).map fun c =>
              vScanCol (r0 :: rest) (r0 :: rest).length c).flatten) := by
          have : p.2 ∈ (((List.range (r0 :: rest).length).map fun r =>
              hScanRow (r0 :: rest) r0.length r).flatten ++
              ((List.range r0.length).map fun c =>
                vScanCol (r0 :: rest) (r0 :: rest).length c).flatten).enum.map Prod.snd :=
            List.mem_map_of_mem Prod.snd hpmem
          rwa [List.enum_map_snd] at this
        rw [hcells, hg]
        rcases List.mem_append.mp hmem2 with hm | hm
        · obtain ⟨l', hl', hml⟩ := List.mem_flatten.mp hm
          obtain ⟨r, hr, hle⟩ := List.mem_map.mp hl'
          rw [← hle] at hml
          exact Or.inl (by simpa using hScanRowGo_mem (r0 :: rest) r0.length r _ _ _ hml)
        · obtain ⟨l', hl', hml⟩ := List.mem_flatten.mp hm
          obtain ⟨c, hc, hle⟩ := List.mem_map.mp hl'
          rw [← hle] at hml
          exact Or.inr (by simpa using vScanColGo_mem (r0 :: rest) _ c _ _ _ hml)
    · rw [if_neg hall] at hp
      cases hp

theorem isRun_len2 (g : Grid) (w h : Nat) (cells : List (Nat × Nat))
    (hr : isHRun g w cells ∨ isVRun g h cells) : 2 ≤ cells.length := by
  rcases hr with ⟨r, c0, L, he, hL, _⟩ | ⟨c, r0, L, he, hL, _⟩ <;>
    simp [he, hL]

theorem isRun_nodup (g : Grid) (w h : Nat) (cells : List (Nat × Nat))
    (hr : isHRun g w cells ∨ isVRun g h cells) : cells.Nodup := by
  rcases hr with ⟨r, c0, L, he, _⟩ | ⟨c, r0, L, he, _⟩
  · rw [he]
    apply List.Nodup.map _ (List.nodup_range _)
    intro i j hij
    have := congrArg Prod.snd hij
    simp only at this
    omega
  · rw [he]
    apply List.Nodup.map _ (List.nodup_range _)
    intro i j hij
    have := congrArg Prod.fst hij
    simp only at this
    omega

theorem isRun_inBnd (g : Grid) (w h : Nat) (cells : List (Nat × Nat))
    (hr : isHRun g w cells ∨ isVRun g h cells) : ∀ p ∈ cells, inBnd g p := by
  intro p hp
  rcases hr with ⟨r, c0, L, he, _, _, hnb, _⟩ | ⟨c, r0, L, he, _, _, hnb, _⟩
  · rw [he] at hp
    obtain ⟨i, hi, hpe⟩ := List.mem_map.mp hp
    rw [← hpe]
    exact inBnd_of_getCell_ne g r (c0 + i) (hnb i (List.mem_range.mp hi))
  · rw [he] at hp
    obtain ⟨i, hi, hpe⟩ := List.mem_map.mp hp
    rw [← hpe]
    exact inBnd_of_getCell_ne g (r0 + i) c (hnb i (List.mem_range.mp hi))

/-- Every slot of a successful parse has pairwise-distinct cells. -/
theorem parse_slots_nodup (raw : List (List Char)) (g : Grid) (slots : List Slot)
    (hp : parse_grid raw = .ok (g, slots)) : ∀ s ∈ slots, s.cells.Nodup := by
  intro s hs
  obtain ⟨_, _, _, _, hruns⟩ := parse_grid_ok raw g slots hp
  exact isRun_nodup g _ g.length s.cells (hruns s hs)

/-- Every cell of every slot of a successful parse is inside the grid. -/
theorem parse_slots_inBnd (raw : List (List Char)) (g : Grid) (slots : List Slot)
    (hp : parse_grid raw = .ok (g, slots)) :
    ∀ s ∈ slots, ∀ p ∈ s.cells, inBnd g p := by
  intro s hs
  obtain ⟨_, _, _, _, hruns⟩ := parse_grid_ok raw g slots hp
  exact isRun_inBnd g _ g.length s.cells (hruns s hs)

/-- Slot ids of a successful parse are distinct. -/
theorem parse_slots_ids_nodup (raw : List (List Char)) (g : Grid) (slots : List Slot)
    (hp : parse_grid raw = .ok (g, slots)) : (slots.map (·.id)).Nodup := by
  obtain ⟨_, _, _, hids, _⟩ := parse_grid_ok raw g slots hp
  rw [hids]
  exact List.nodup_range _

/-- Claim C2: every slot returned by a successful parse of a non-empty grid
with equal-length rows has at least two cells, and its cell list is a
maximal contiguous horizontal or vertical run of non-blocked cells in
order: the cell before its first cell and the cell after its last cell are
blocked or fall outside the grid. -/
theorem C2_parse_slots_valid (raw : List (List Char)) (g : Grid) (slots : List Slot)
    (hp : parse_grid raw = .ok (g, slots)) :
    ∀ s ∈ slots, 2 ≤ s.cells.length ∧
      (isHRun raw ((raw.head?.getD []).length) s.cells ∨
        isVRun raw raw.length s.cells) := by
  intro s hs
  obtain ⟨hg, _, _, _, hruns⟩ := parse_grid_ok raw g slots hp
  subst hg
  exact ⟨isRun_len2 g _ g.length s.cells (hruns s hs), hruns s hs⟩

/-- Witness for C2 at a concrete input. -/
theorem C2_parse_slots_valid_witness :
    parse_grid [['A', 'B']] = .ok ([['A', 'B']], [Slot.mk 0 [(0, 0), (0, 1)]]) ∧
      ∀ s ∈ [Slot.mk 0 [(0, 0), (0, 1)]], 2 ≤ s.cells.length ∧
        (isHRun [['A', 'B']] (([['A', 'B']].head?.getD []).length) s.cells ∨
          isVRun [['A', 'B']] [['A', 'B']].length s.cells) :=
  ⟨by decide,
    C2_parse_slots_valid [['A', 'B']] [['A', 'B']] [Slot.mk 0 [(0, 0), (0, 1)]]
      (by decide)⟩

/-! Domain construction (source: build_domains). -/

/-- Words of the dictionary grouped by length (source: the by_len dict):
strip each entry, drop blank ones, record the uppercased word under its
stripped length, preserving dictionary order. Represented as the lookup
function of the Python dict with default []. -/
def by_len (dictionary : List Word) : Nat → List Word :=
  dictionary.foldl
    (fun m w =>
      let w' := strip w
      if w' = [] then m
      else fun L => if L = w'.length then m L ++ [upper w'] else m L)
    (fun _ => [])

/-- Build the domain of every slot (source: build_domains). -/
def build_domains (slots : List Slot) (dictionary : List Word) : Domains :=
  let bl := by_len dictionary
  slots.foldl (fun d slot => insertD d slot.id (bl (slot_length slot))) []

/-- Specification form of by_len: the normalized dictionary words of a given
length, in dictionary order. -/
def lenWords (dictionary : List Word) (L : Nat) : List Word :=
  dictionary.filterMap fun w =>
    let w' := strip w
    if w' ≠ [] ∧ w'.length = L then some (upper w') else none

theorem by_len_foldl (dictionary : List Word) :
    ∀ (m : Nat → List Word) (L : Nat),
      (dictionary.foldl
        (fun m w =>
          let w' := strip w
          if w' = [] then m
          else fun L => if L = w'.length then m L ++ [upper w'] else m L)
        m) L = m L ++ lenWords dictionary L := by
  induction dictionary with
  | nil => intro m L; simp [lenWords]
  | cons w rest ih =>
    intro m L
    simp only [List.foldl_cons]
    rw [ih]
    by_cases hw : strip w = []
    · simp only [if_pos hw]
      have : lenWords (w :: rest) L = lenWords rest L := by
        simp only [lenWords, List.filterMap_cons]
        rw [if_neg (by simp [hw])]
      rw [this]
    · simp only [if_neg hw]
      by_cases hL : L = (strip w).length
      · rw [if_pos hL]
        have : lenWords (w :: rest) L = upper (strip w) :: lenWords rest L := by
          simp only [lenWords, List.filterMap_cons]
          rw [if_pos (by exact ⟨hw, hL.symm⟩)]
        rw [this, List.append_assoc]
        rfl
      · rw [if_neg hL]
        have : lenWords (w :: rest) L = lenWords rest L := by
          simp only [lenWords, List.filterMap_cons]
          rw [if_neg (by simp; intro _; omega)]
        rw [this]

theorem by_len_eq (dictionary : List Word) (L : Nat) :
    by_len dictionary L = lenWords dictionary L := by
  unfold by_len
  rw [by_len_foldl]
  rfl

theorem find?_single_ne (k0 k : Nat) (v : List Word) (h : k ≠ k0) :
    List.find? (fun p => p.1 == k) [(k0, v)] = none := by
  have hb : ((k0, v).1 == k) = false := by
    simp only [beq_eq_false_iff_ne, ne_eq]
    exact fun he => h he.symm
  rw [List.find?_cons_of_neg]
  · exact List.find?_nil
  · simp [hb]

theorem lookupD_append_ne (d : Domains) (k0 k : Nat) (v : List Word)
    (h : k ≠ k0) : lookupD (d ++ [(k0, v)]) k = lookupD d k := by
  unfold lookupD
  rw [List.find?_append, find?_single_ne k0 k v h]
  cases d.find? fun p => p.1 == k <;> rfl

theorem fold_insertD_preserve (bl : Slot → List Word) :
    ∀ (slots : List Slot) (d : Domains) (k : Nat),
      (slots.map (·.id)).Nodup →
      (∀ s ∈ slots, d.find? (fun p => p.1 == s.id) = none) →
      (∀ s ∈ slots, s.id ≠ k) →
      lookupD (slots.foldl (fun d slot => insertD d slot.id (bl slot)) d) k =
        lookupD d k := by
  intro slots
  induction slots with
  | nil => intro d k _ _ _; rfl
  | cons t rest ih =>
    intro d k hnd habs hne
    simp only [List.foldl_cons]
    have habs_t : d.find? (fun p => p.1 == t.id) = none :=
      habs t (List.mem_cons_self t rest)
    have hins : insertD d t.id (bl t) = d ++ [(t.id, bl t)] := by
      unfold insertD
      rw [habs_t]
      rfl
    rw [hins]
    have hpair : t.id ∉ rest.map (·.id) ∧ (rest.map (·.id)).Nodup := by
      rw [List.map_cons] at hnd
      exact List.nodup_cons.mp hnd
    have habs' : ∀ s ∈ rest,
        (d ++ [(t.id, bl t)]).find? (fun p => p.1 == s.id) = none := by
      intro s hs
      rw [List.find?_append, habs s (List.mem_cons_of_mem t hs),
        find?_single_ne t.id s.id (bl t)
          (fun he => hpair.1 (he ▸ List.mem_map_of_mem _ hs))]
      rfl
    rw [ih (d ++ [(t.id, bl t)]) k hpair.2 habs'
      (fun s hs => hne s (List.mem_cons_of_mem t hs))]
    exact lookupD_append_ne d t.id k (bl t)
      (fun he => hne t (List.mem_cons_self t rest) he.symm)

theorem fold_insertD_spec (bl : Slot → List Word) :
    ∀ (slots : List Slot) (d : Domains),
      (slots.map (·.id)).Nodup →
      (∀ s ∈ slots, d.find? (fun p => p.1 == s.id) = none) →
      ∀ s ∈ slots,
        lookupD (slots.foldl (fun d slot => insertD d slot.id (bl slot)) d) s.id =
          bl s := by
  intro slots
  induction slots with
  | nil => intro d _ _ s hs; cases hs
  | cons t rest ih =>
    intro d hnd habs s hs
    simp only [List.foldl_cons]
    have habs_t : d.find? (fun p => p.1 == t.id) = none :=
      habs t (List.mem_cons_self t rest)
    have hins : insertD d t.id (bl t) = d ++ [(t.id, bl t)] := by
      unfold insertD
      rw [habs_t]
      rfl
    rw [hins]
    have hpair : t.id ∉ rest.map (·.id) ∧ (rest.map (·.id)).Nodup := by
      rw [List.map_cons] at hnd
      exact List.nodup_cons.mp hnd
    have habs' : ∀ s' ∈ rest,
        (d ++ [(t.id, bl t)]).find? (fun p => p.1 == s'.id) = none := by
      intro s' hs'
      rw [List.find?_append, habs s' (List.mem_cons_of_mem t hs'),
        find?_single_ne t.id s'.id (bl t)
          (fun he => hpair.1 (he ▸ List.mem_map_of_mem _ hs'))]
      rfl
    rcases List.mem_cons.mp hs with hst | hsr
    · subst hst
      rw [fold_insertD_preserve bl rest (d ++ [(s.id, bl s)]) s.id hpair.2 habs'
        (fun s' hs' => fun he => hpair.1 (he ▸ List.mem_map_of_mem _ hs'))]
      unfold lookupD
      rw [List.find?_append, habs_t]
      have hfind : List.find? (fun p => p.1 == s.id) [(s.id, bl s)] =
          some (s.id, bl s) := by
        rw [List.find?_cons_of_pos]
        simp
      rw [hfind]
      rfl
    · exact ih (d ++ [(t.id, bl t)]) hpair.2 habs' s hsr

/-- Shared characterisation of build_domains: under distinct slot ids, each
slot's domain is exactly the ordered list of normalized dictionary words of
the slot's length. -/
theorem build_domains_lookup (slots : List Slot) (dictionary : List Word)
    (hid : (slots.map (·.id)).Nodup) :
    ∀ s ∈ slots, lookupD (build_domains slots dictionary) s.id =
      lenWords dictionary (slot_length s) := by
  intro s hs
  unfold build_domains
  have := fold_insertD_spec (fun slot => by_len dictionary (slot_length slot))
    slots [] hid (fun _ _ => rfl) s hs
  rw [this]
  exact by_len_eq dictionary (slot_length s)

theorem upper_length (w : Word) : (upper w).length = w.length := by
  simp [upper]

theorem lenWords_length (dictionary : List Word) (L : Nat) :
    ∀ word ∈ lenWords dictionary L, word.length = L := by
  intro word hw
  obtain ⟨w, _, hcond⟩ := List.mem_filterMap.mp hw
  simp only at hcond
  by_cases hc : strip w ≠ [] ∧ (strip w).length = L
  · rw [if_pos hc] at hcond
    injection hcond with he
    rw [← he, upper_length]
    exact hc.2
  · rw [if_neg hc] at hcond
    cases hcond

/-- Claim C7: with well-defined slot ids, build_domains maps each slot id to
the list of non-blank dictionary entries, uppercase-normalized, whose
length equals the slot's cell count, in dictionary order — stated as the
equality with the order-preserving filterMap of the dictionary. -/
theorem C7_build_domains_correct (slots : List Slot) (dictionary : List Word)
    (hid : (slots.map (·.id)).Nodup) :
    ∀ s ∈ slots,
      lookupD (build_domains slots dictionary) s.id =
        (dictionary.filterMap fun w =>
          let w' := strip w
          if w' ≠ [] ∧ w'.length = slot_length s then some (upper w') else none) ∧
      ∀ word ∈ lookupD (build_domains slots dictionary) s.id,
        word.length = s.cells.length := by
  intro s hs
  have h1 := build_domains_lookup slots dictionary hid s hs
  refine ⟨h1, ?_⟩
  intro word hw
  rw [h1] at hw
  exact lenWords_length dictionary (slot_length s) word hw

/-- Witness for C7 at a concrete input. -/
theorem C7_build_domains_correct_witness :
    (([Slot.mk 0 [(0, 0), (0, 1)]].map (·.id)).Nodup) ∧
      ∀ s ∈ [Slot.mk 0 [(0, 0), (0, 1)]],
        lookupD (build_domains [Slot.mk 0 [(0, 0), (0, 1)]] [['a', 't'], [' '], ['t', 'o', 'o']]) s.id =
          ([['a', 't'], [' '], ['t', 'o', 'o']].filterMap fun w =>
            let w' := strip w
            if w' ≠ [] ∧ w'.length = slot_length s then some (upper w') else none) ∧
        ∀ word ∈ lookupD (build_domains [Slot.mk 0 [(0, 0), (0, 1)]]
            [['a', 't'], [' '], ['t', 'o', 'o']]) s.id,
          word.length = s.cells.length :=
  ⟨by decide,
    C7_build_domains_correct [Slot.mk 0 [(0, 0), (0, 1)]]
      [['a', 't'], [' '], ['t', 'o', 'o']] (by decide)⟩

/-! Slot selection with the MRV heuristic (source: select_unassigned_slot). -/

/-- Number of domain words of a slot passing the consistency check against
the live grid (the inner counting loop of the selector). -/
def viableCount (doms : Domains) (slot : Slot) (g : Grid) : Nat :=
  ((lookupD doms slot.id).filter fun w => is_consistent w slot g).length

/-- The selection loop: scan the slots in order, skip assigned ones, track
the best (slot, count) seen so far, and stop early as soon as the tracked
count is zero. -/
def selGo (a : Assign) (doms : Domains) (g : Grid) :
    List Slot → Option (Slot × Nat) → Option (Slot × Nat)
  | [], best => best
  | slot :: rest, best =>
    if (lookupA a slot.id).isSome then selGo a doms g rest best
    else
      let count := viableCount doms slot g
      let p : Slot × Nat :=
        match best with
        | none => (slot, count)
        | some (bs, bc) => if count < bc then (slot, count) else (bs, bc)
      if p.2 = 0 then some p else selGo a doms g rest (some p)

/-- Select the next slot to fill (source: select_unassigned_slot): the
unassigned slot with the fewest currently-consistent candidates, first
occurrence winning ties, with early exit on a zero count; none when every
slot is assigned. -/
def select_unassigned_slot (slots : List Slot) (assignment : Assign)
    (domains : Domains) (grid : Grid) : Option (Slot × Nat) :=
  selGo assignment domains grid slots none

theorem selGo_spec (a : Assign) (doms : Domains) (g : Grid) :
    ∀ (l : List Slot) (best : Option (Slot × Nat)),
      (∀ bs bc, best = some (bs, bc) →
        lookupA a bs.id = none ∧ bc = viableCount doms bs g ∧ 0 < bc) →
      (match selGo a doms g l best with
       | none => best = none ∧ ∀ s ∈ l, (lookupA a s.id).isSome
       | some (r, c) =>
          lookupA a r.id = none ∧ c = viableCount doms r g ∧
          ((c = 0 ∧ (r ∈ l ∨ best = some (r, c))) ∨
           ((∀ s ∈ l, lookupA a s.id = none → c ≤ viableCount doms s g) ∧
            (best = some (r, c) ∨
             (r ∈ l ∧ (∀ bs bc, best = some (bs, bc) → c < bc) ∧
              ∃ l1 l2, l = l1 ++ r :: l2 ∧
                ∀ s ∈ l1, lookupA a s.id = none → c < viableCount doms s g))))) := by
  intro l
  induction l with
  | nil =>
    intro best hbest
    cases best with
    | none => exact ⟨rfl, fun s hs => absurd hs (List.not_mem_nil s)⟩
    | some p =>
      obtain ⟨bs, bc⟩ := p
      obtain ⟨h1, h2, h3⟩ := hbest bs bc rfl
      exact ⟨h1, h2, Or.inr ⟨fun s hs => absurd hs (List.not_mem_nil s), Or.inl rfl⟩⟩
  | cons slot rest ih =>
    intro best hbest
    by_cases hassign : (lookupA a slot.id).isSome
    · have hsel : selGo a doms g (slot :: rest) best = selGo a doms g rest best := by
        simp only [selGo, if_pos hassign]
      rw [hsel]
      have := ih best hbest
      cases hres : selGo a doms g rest best with
      | none =>
        rw [hres] at this
        refine ⟨this.1, fun s hs => ?_⟩
        rcases List.mem_cons.mp hs with hs | hs
        · rw [hs]; exact hassign
        · exact this.2 s hs
      | some p =>
        obtain ⟨r, c⟩ := p
        rw [hres] at this
        obtain ⟨h1, h2, h3⟩ := this
        refine ⟨h1, h2, ?_⟩
        rcases h3 with ⟨hc0, hmem⟩ | ⟨hmin, hrest⟩
        · exact Or.inl ⟨hc0, hmem.imp (List.mem_cons_of_mem slot) id⟩
        · refine Or.inr ⟨?_, ?_⟩
          · intro s hs hun
            rcases List.mem_cons.mp hs with hs | hs
            · rw [hs] at hun; rw [hun] at hassign; cases hassign
            · exact hmin s hs hun
          · rcases hrest with hb | ⟨hmem, hlt, l1, l2, hsplit, hfirst⟩
            · exact Or.inl hb
            · refine Or.inr ⟨List.mem_cons_of_mem slot hmem, hlt,
                slot :: l1, l2, (by rw [hsplit]; rfl), ?_⟩
              intro s hs hun
              rcases List.mem_cons.mp hs with hs | hs
              · rw [hs] at hun; rw [hun] at hassign; cases hassign
              · exact hfirst s hs hun
    · have hun : lookupA a slot.id = none := Option.not_isSome_iff_eq_none.mp hassign
      cases best with
      | none =>
        have hsel : selGo a doms g (slot :: rest) none =
            (if viableCount doms slot g = 0 then some (slot, viableCount doms slot g)
             else selGo a doms g rest (some (slot, viableCount doms slot g))) := by
          simp only [selGo, if_neg hassign]
        rw [hsel]
        by_cases hz : viableCount doms slot g = 0
        · rw [if_pos hz]
          exact ⟨hun, rfl, Or.inl ⟨hz, Or.inl (List.mem_cons_self slot rest)⟩⟩
        · rw [if_neg hz]
          have hbest' : ∀ bs bc, some (slot, viableCount doms slot g) = some (bs, bc) →
              lookupA a bs.id = none ∧ bc = viableCount doms bs g ∧ 0 < bc := by
            intro bs bc he
            injection he with he'
            have e1 : slot = bs := congrArg Prod.fst he'
            have e2 : viableCount doms slot g = bc := congrArg Prod.snd he'
            subst e1
            exact ⟨hun, e2.symm, by omega⟩
          have := ih (some (slot, viableCount doms slot g)) hbest'
          cases hres : selGo a doms g rest (some (slot, viableCount doms slot g)) with
          | none =>
            rw [hres] at this
            cases this.1
          | some p =>
            obtain ⟨r, c⟩ := p
            rw [hres] at this
            obtain ⟨h1, h2, h3⟩ := this
            refine ⟨h1, h2, ?_⟩
            rcases h3 with ⟨hc0, hmem⟩ | ⟨hmin, hrest⟩
            · rcases hmem with hmem | hbe
              · exact Or.inl ⟨hc0, Or.inl (List.mem_cons_of_mem slot hmem)⟩
              · injection hbe with hbe'
                have e2 : viableCount doms slot g = c := congrArg Prod.snd hbe'
                omega
            · refine Or.inr ⟨?_, ?_⟩
              · intro s hs hsun
                rcases List.mem_cons.mp hs with hs | hs
                · rw [hs]
                  rcases hrest with hbe | ⟨_, hlt, _⟩
                  · injection hbe with hbe'
                    have e1 : slot = r := congrArg Prod.fst hbe'
                    have e2 : viableCount doms slot g = c := congrArg Prod.snd hbe'
                    omega
                  · have := hlt slot (viableCount doms slot g) rfl
                    omega
                · exact hmin s hs hsun
              · rcases hrest with hbe | ⟨hmem, hlt, l1, l2, hsplit, hfirst⟩
                · injection hbe with hbe'
                  have e1 : slot = r := congrArg Prod.fst hbe'
                  refine Or.inr ⟨(by rw [← e1]; exact List.mem_cons_self slot rest),
                    (fun bs bc hco => by cases hco), [], rest, (by rw [← e1]; rfl), ?_⟩
                  intro s hs
                  cases hs
                · refine Or.inr ⟨List.mem_cons_of_mem slot hmem,
                    (fun bs bc hco => by cases hco),
                    slot :: l1, l2, (by rw [hsplit]; rfl), ?_⟩
                  intro s hs hsun
                  rcases List.mem_cons.mp hs with hs | hs
                  · rw [hs]
                    have := hlt slot (viableCount doms slot g) rfl
                    omega
                  · exact hfirst s hs hsun
      | some bp =>
        obtain ⟨bs, bc⟩ := bp
        obtain ⟨hbun, hbcnt, hbpos⟩ := hbest bs bc rfl
        by_cases hcmp : viableCount doms slot g < bc
        · have hsel : selGo a doms g (slot :: rest) (some (bs, bc)) =
              (if viableCount doms slot g = 0 then some (slot, viableCount doms slot g)
               else selGo a doms g rest (some (slot, viableCount doms slot g))) := by
            simp only [selGo, if_neg hassign, if_pos hcmp]
          rw [hsel]
          by_cases hz : viableCount doms slot g = 0
          · rw [if_pos hz]
            exact ⟨hun, rfl, Or.inl ⟨hz, Or.inl (List.mem_cons_self slot rest)⟩⟩
          · rw [if_neg hz]
            have hbest' : ∀ bs' bc', some (slot, viableCount doms slot g) = some (bs', bc') →
                lookupA a bs'.id = none ∧ bc' = viableCount doms bs' g ∧ 0 < bc' := by
              intro bs' bc' he
              injection he with he'
              have e1 : slot = bs' := congrArg Prod.fst he'
              have e2 : viableCount doms slot g = bc' := congrArg Prod.snd he'
              subst e1
              exact ⟨hun, e2.symm, by omega⟩
            have := ih (some (slot, viableCount doms slot g)) hbest'
            cases hres : selGo a doms g rest (some (slot, viableCount doms slot g)) with
            | none =>
              rw [hres] at this
              cases this.1
            | some p =>
              obtain ⟨r, c⟩ := p
              rw [hres] at this
              obtain ⟨h1, h2, h3⟩ := this
              refine ⟨h1, h2, ?_⟩
              rcases h3 with ⟨hc0, hmem⟩ | ⟨hmin, hrest⟩
              · rcases hmem with hmem | hbe
                · exact Or.inl ⟨hc0, Or.inl (List.mem_cons_of_mem slot hmem)⟩
                · injection hbe with hbe'
                  have e2 : viableCount doms slot g = c := congrArg Prod.snd hbe'
                  omega
              · refine Or.inr ⟨?_, ?_⟩
                · intro s hs hsun
                  rcases List.mem_cons.mp hs with hs | hs
                  · rw [hs]
                    rcases hrest with hbe | ⟨_, hlt, _⟩
                    · injection hbe with hbe'
                      have e2 : viableCount doms slot g = c := congrArg Prod.snd hbe'
                      omega
                    · have := hlt slot (viableCount doms slot g) rfl
                      omega
                  · exact hmin s hs hsun
                · rcases hrest with hbe | ⟨hmem, hlt, l1, l2, hsplit, hfirst⟩
                  · injection hbe with hbe'
                    have e1 : slot = r := congrArg Prod.fst hbe'
                    have e2 : viableCount doms slot g = c := congrArg Prod.snd hbe'
                    refine Or.inr ⟨(by rw [← e1]; exact List.mem_cons_self slot rest), ?_,
                      [], rest, (by rw [← e1]; rfl), ?_⟩
                    · intro bs' bc' hco
                      injection hco with hco'
                      have e3 : bc = bc' := congrArg Prod.snd hco'
                      omega
                    · intro s hs
                      cases hs
                  · refine Or.inr ⟨List.mem_cons_of_mem slot hmem, ?_,
                      slot :: l1, l2, (by rw [hsplit]; rfl), ?_⟩
                    · intro bs' bc' hco
                      injection hco with hco'
                      have e3 : bc = bc' := congrArg Prod.snd hco'
                      have := hlt slot (viableCount doms slot g) rfl
                      omega
                    · intro s hs hsun
                      rcases List.mem_cons.mp hs with hs | hs
                      · rw [hs]
                        have := hlt slot (viableCount doms slot g) rfl
                        omega
                      · exact hfirst s hs hsun
        · have hsel : selGo a doms g (slot :: rest) (some (bs, bc)) =
              (if bc = 0 then some (bs, bc) else selGo a doms g rest (some (bs, bc))) := by
            simp only [selGo, if_neg hassign, if_neg hcmp]
          rw [hsel]
          rw [if_neg (by omega)]
          have := ih (some (bs, bc)) hbest
          cases hres : selGo a doms g rest (some (bs, bc)) with
          | none =>
            rw [hres] at this
            cases this.1
          | some p =>
            obtain ⟨r, c⟩ := p
            rw [hres] at this
            obtain ⟨h1, h2, h3⟩ := this
            refine ⟨h1, h2, ?_⟩
            rcases h3 with ⟨hc0, hmem⟩ | ⟨hmin, hrest⟩
            · rcases hmem with hmem | hbe
              · exact Or.inl ⟨hc0, Or.inl (List.mem_cons_of_mem slot hmem)⟩
              · exact Or.inl ⟨hc0, Or.inr hbe⟩
            · refine Or.inr ⟨?_, ?_⟩
              · intro s hs hsun
                rcases List.mem_cons.mp hs with hs | hs
                · rw [hs]
                  rcases hrest with hbe | ⟨_, hlt, _⟩
                  · injection hbe with hbe'
                    have e2 : bc = c := congrArg Prod.snd hbe'
                    omega
                  · have := hlt bs bc rfl
                    omega
                · exact hmin s hs hsun
              · rcases hrest with hbe | ⟨hmem, hlt, l1, l2, hsplit, hfirst⟩
                · exact Or.inl hbe
                · refine Or.inr ⟨List.mem_cons_of_mem slot hmem, hlt,
                    slot :: l1, l2, (by rw [hsplit]; rfl), ?_⟩
                  intro s hs hsun
                  rcases List.mem_cons.mp hs with hs | hs
                  · rw [hs]
                    have := hlt bs bc rfl
                    omega
                  · exact hfirst s hs hsun

/-- Facts about a successful selection needed by the search: the returned
slot is an unassigned member of the slot list with its viable count. -/
theorem select_some_spec (slots : List Slot) (a : Assign) (doms : Domains)
    (g : Grid) (slot : Slot) (cnt : Nat)
    (h : select_unassigned_slot slots a doms g = some (slot, cnt)) :
    slot ∈ slots ∧ lookupA a slot.id = none ∧ cnt = viableCount doms slot g := by
  have := selGo_spec a doms g slots none (fun bs bc hco => by cases hco)
  rw [show selGo a doms g slots none = select_unassigned_slot slots a doms g from rfl,
    h] at this
  obtain ⟨h1, h2, h3⟩ := this
  rcases h3 with ⟨_, hmem⟩ | ⟨_, hrest⟩
  · rcases hmem with hmem | hbe
    · exact ⟨hmem, h1, h2⟩
    · cases hbe
  · rcases hrest with hbe | ⟨hmem, _⟩
    · cases hbe
    · exact ⟨hmem, h1, h2⟩

/-- Claim C5: when some slot is unassigned, the selector returns an
unassigned slot with its count of domain words passing the consistency
check against the live grid, and that slot is the first unassigned slot in
discovery order achieving the minimum count, or has a count of exactly
zero (the permitted early return). -/
theorem C5_select_mrv (slots : List Slot) (a : Assign) (doms : Domains) (g : Grid)
    (h : ∃ s ∈ slots, lookupA a s.id = none) :
    ∃ slot cnt, select_unassigned_slot slots a doms g = some (slot, cnt) ∧
      slot ∈ slots ∧ lookupA a slot.id = none ∧ cnt = viableCount doms slot g ∧
      (cnt = 0 ∨
        ((∀ s ∈ slots, lookupA a s.id = none → cnt ≤ viableCount doms s g) ∧
         ∃ l1 l2, slots = l1 ++ slot :: l2 ∧
           ∀ s ∈ l1, lookupA a s.id = none → cnt < viableCount doms s g)) := by
  have hspec := selGo_spec a doms g slots none (fun bs bc hco => by cases hco)
  cases hres : selGo a doms g slots none with
  | none =>
    rw [hres] at hspec
    obtain ⟨s, hs, hsun⟩ := h
    have := hspec.2 s hs
    rw [hsun] at this
    cases this
  | some p =>
    obtain ⟨r, c⟩ := p
    rw [hres] at hspec
    obtain ⟨h1, h2, h3⟩ := hspec
    have hmem_min : r ∈ slots ∧ (c = 0 ∨
        ((∀ s ∈ slots, lookupA a s.id = none → c ≤ viableCount doms s g) ∧
         ∃ l1 l2, slots = l1 ++ r :: l2 ∧
           ∀ s ∈ l1, lookupA a s.id = none → c < viableCount doms s g)) := by
      rcases h3 with ⟨hc0, hmem⟩ | ⟨hmin, hrest⟩
      · rcases hmem with hmem | hbe
        · exact ⟨hmem, Or.inl hc0⟩
        · cases hbe
      · rcases hrest with hbe | ⟨hmem, _, l1, l2, hsplit, hfirst⟩
        · cases hbe
        · exact ⟨hmem, Or.inr ⟨hmin, l1, l2, hsplit, hfirst⟩⟩
    exact ⟨r, c, hres, hmem_min.1, h1, h2, hmem_min.2⟩

/-- Witness for C5 at a concrete input. -/
theorem C5_select_mrv_witness :
    (∃ s ∈ [Slot.mk 0 [(0, 0), (0, 1)]], lookupA [] s.id = none) ∧
      ∃ slot cnt,
        select_unassigned_slot [Slot.mk 0 [(0, 0), (0, 1)]] [] [(0, [['A', 'T']])]
            [['.', '.']] = some (slot, cnt) ∧
        slot ∈ [Slot.mk 0 [(0, 0), (0, 1)]] ∧ lookupA [] slot.id = none ∧
        cnt = viableCount [(0, [['A', 'T']])] slot [['.', '.']] ∧
        (cnt = 0 ∨
          ((∀ s ∈ [Slot.mk 0 [(0, 0), (0, 1)]], lookupA [] s.id = none →
              cnt ≤ viableCount [(0, [['A', 'T']])] s [['.', '.']]) ∧
           ∃ l1 l2, [Slot.mk 0 [(0, 0), (0, 1)]] = l1 ++ slot :: l2 ∧
             ∀ s ∈ l1, lookupA [] s.id = none →
               cnt < viableCount [(0, [['A', 'T']])] s [['.', '.']])) :=
  ⟨⟨Slot.mk 0 [(0, 0), (0, 1)], by decide, by decide⟩,
    C5_select_mrv [Slot.mk 0 [(0, 0), (0, 1)]] [] [(0, [['A', 'T']])] [['.', '.']]
      ⟨Slot.mk 0 [(0, 0), (0, 1)], by decide, by decide⟩⟩

/-! Backtracking search (source: backtrack) and the solver entry point
(source: solve_crossword). The recursion carries an explicit depth budget;
each nesting level assigns one previously-unassigned slot, so the budget
slots.length + 1 passed by solve_crossword never runs out (theorem
backtrack_ne_none below), and the budgeted function computes exactly the
source's unbounded recursion. -/

/-- The candidate loop of backtrack over the chosen slot's domain: skip the
word when the no-reuse flag is set and the word is already a value of the
assignment, skip when it fails the consistency check, otherwise apply it,
record it, and recurse through bt; on failure remove the record and undo
the placement, then continue with the next candidate. -/
def tryWords (bt : Grid → Assign → Option (Bool × Grid × Assign)) (slot : Slot)
    (forbid_reuse : Bool) :
    List Word → Grid → Assign → Option (Bool × Grid × Assign)
  | [], g, a => some (false, g, a)
  | word :: ws, g, a =>
    if forbid_reuse = true ∧ word ∈ valuesA a then
      tryWords bt slot forbid_reuse ws g a
    else if is_consistent word slot g = false then
      tryWords bt slot forbid_reuse ws g a
    else
      let res := apply_word word slot g
      match bt res.2 (insertA a slot.id word) with
      | none => none
      | some (true, g2, a2) => some (true, g2, a2)
      | some (false, g2, a2) =>
        tryWords bt slot forbid_reuse ws (undo res.1 g2) (eraseA a2 slot.id)

/-- Depth-first search with chronological backtracking (source: backtrack).
Returns none only when the depth budget is exhausted, which never happens
for the budget solve_crossword passes. -/
def backtrack (fuel : Nat) (slots : List Slot) (g : Grid) (domains : Domains)
    (assignment : Assign) (forbid_reuse : Bool) :
    Option (Bool × Grid × Assign) :=
  match fuel with
  | 0 => none
  | fuel + 1 =>
    if assignment.length = slots.length then some (true, g, assignment)
    else
      match select_unassigned_slot slots assignment domains g with
      | none => some (false, g, assignment)
      | some (slot, count) =>
        if count = 0 then some (false, g, assignment)
        else
          tryWords (fun g' a' => backtrack fuel slots g' domains a' forbid_reuse)
            slot forbid_reuse (lookupD domains slot.id) g assignment

/-- Solver entry point (source: solve_crossword): parse and validate the
grid, reject a grid without slots, build the domains, and run the search
from the empty assignment, returning the success flag, the final grid, the
assignment, and the slots. -/
def solve_crossword (raw_grid : List (List Char)) (dictionary : List Word)
    (forbid_reuse : Bool) :
    Except String (Bool × Grid × Assign × List Slot) :=
  match parse_grid raw_grid with
  | .error e => .error e
  | .ok (grid, slots) =>
    if slots.isEmpty then .error "no slots of length at least 2"
    else
      let domains := build_domains slots dictionary
      match backtrack (slots.length + 1) slots grid domains [] forbid_reuse with
      | none => .error "search depth exhausted"
      | some (success, g', a') => .ok (success, g', a', slots)

instance : DecidableEq (Bool × Grid × Assign × List Slot) := instDecidableEqProd

/-! Association-list facts about the assignment dict. -/

theorem lookupA_none_find? (a : Assign) (k : Nat) (h : lookupA a k = none) :
    a.find? (fun p => p.1 == k) = none := by
  unfold lookupA at h
  cases hf : a.find? fun p => p.1 == k with
  | none => rfl
  | some e => rw [hf] at h; cases h

theorem lookupA_none_not_mem (a : Assign) (k : Nat) (h : lookupA a k = none) :
    ∀ p ∈ a, p.1 ≠ k := by
  intro p hp he
  have := List.find?_eq_none.mp (lookupA_none_find? a k h) p hp
  simp [he] at this

theorem insertA_not_mem (a : Assign) (k : Nat) (v : Word)
    (h : lookupA a k = none) : insertA a k v = a ++ [(k, v)] := by
  unfold insertA
  rw [h]
  rfl

theorem findA_single_ne (k0 k : Nat) (v : Word) (h : k ≠ k0) :
    List.find? (fun p => p.1 == k) [(k0, v)] = none := by
  have hb : ((k0, v).1 == k) = false := by
    simp only [beq_eq_false_iff_ne, ne_eq]
    exact fun he => h he.symm
  rw [List.find?_cons_of_neg]
  · exact List.find?_nil
  · simp [hb]

theorem lookupA_append_self (a : Assign) (k : Nat) (v : Word)
    (h : lookupA a k = none) : lookupA (a ++ [(k, v)]) k = some v := by
  unfold lookupA
  rw [List.find?_append, lookupA_none_find? a k h]
  have : List.find? (fun p => p.1 == k) [(k, v)] = some (k, v) := by
    rw [List.find?_cons_of_pos]
    simp
  rw [this]
  rfl

theorem lookupA_append_ne (a : Assign) (k0 k : Nat) (v : Word) (h : k ≠ k0) :
    lookupA (a ++ [(k0, v)]) k = lookupA a k := by
  unfold lookupA
  rw [List.find?_append, findA_single_ne k0 k v h]
  cases a.find? fun p => p.1 == k <;> rfl

theorem eraseA_append (a : Assign) (k : Nat) (v : Word)
    (h : lookupA a k = none) : eraseA (a ++ [(k, v)]) k = a := by
  unfold eraseA
  rw [List.filter_append]
  have h1 : a.filter (fun p => !(p.1 == k)) = a := by
    apply List.filter_eq_self.mpr
    intro p hp
    simp only [Bool.not_eq_true']
    simp only [beq_eq_false_iff_ne, ne_eq]
    exact lookupA_none_not_mem a k h p hp
  have h2 : ([(k, v)] : Assign).filter (fun p => !(p.1 == k)) = [] := by
    simp
  rw [h1, h2, List.append_nil]

theorem valuesA_append (a : Assign) (k : Nat) (v : Word) :
    valuesA (a ++ [(k, v)]) = valuesA a ++ [v] := by
  simp [valuesA]

theorem keysA_append (a : Assign) (k : Nat) (v : Word) :
    (a ++ [(k, v)]).map (·.1) = a.map (·.1) ++ [k] := by
  simp

theorem lookupA_none_not_mem_keys (a : Assign) (k : Nat)
    (h : lookupA a k = none) : k ∉ a.map (·.1) := by
  intro hmem
  obtain ⟨p, hp, hpe⟩ := List.mem_map.mp hmem
  exact lookupA_none_not_mem a k h p hp hpe

theorem mem_keys_lookupA_isSome (a : Assign) (k : Nat)
    (h : k ∈ a.map (·.1)) : ∃ w, lookupA a k = some w := by
  obtain ⟨p, hp, hpe⟩ := List.mem_map.mp h
  unfold lookupA
  cases hf : a.find? fun q => q.1 == k with
  | some e => exact ⟨e.2, rfl⟩
  | none =>
    exfalso
    have := List.find?_eq_none.mp hf p hp
    simp [hpe] at this

/-! Restoration: a failing branch leaves grid and assignment untouched. -/

theorem tryWords_restore (bt : Grid → Assign → Option (Bool × Grid × Assign))
    (slot : Slot) (forbid : Bool)
    (hbt : ∀ g a g' a', bt g a = some (false, g', a') → g' = g ∧ a' = a)
    (hnd : slot.cells.Nodup) :
    ∀ (words : List Word) (g : Grid) (a : Assign) (g' : Grid) (a' : Assign),
      lookupA a slot.id = none →
      tryWords bt slot forbid words g a = some (false, g', a') →
      g' = g ∧ a' = a := by
  intro words
  induction words with
  | nil =>
    intro g a g' a' hun h
    simp only [tryWords, Option.some.injEq, Prod.mk.injEq] at h
    exact ⟨h.2.1.symm, h.2.2.symm⟩
  | cons word ws ih =>
    intro g a g' a' hun h
    simp only [tryWords] at h
    by_cases h1 : forbid = true ∧ word ∈ valuesA a
    · rw [if_pos h1] at h
      exact ih g a g' a' hun h
    · rw [if_neg h1] at h
      by_cases h2 : is_consistent word slot g = false
      · rw [if_pos h2] at h
        exact ih g a g' a' hun h
      · rw [if_neg h2] at h
        cases hb : bt (apply_word word slot g).2 (insertA a slot.id word) with
        | none =>
          rw [hb] at h
          cases h
        | some t =>
          obtain ⟨b, g2, a2⟩ := t
          rw [hb] at h
          cases b with
          | true => simp at h
          | false =>
            obtain ⟨hg2, ha2⟩ := hbt _ _ _ _ hb
            change tryWords bt slot forbid ws (undo (apply_word word slot g).1 g2)
              (eraseA a2 slot.id) = some (false, g', a') at h
            rw [hg2, ha2] at h
            rw [apply_word_undo word slot g hnd] at h
            rw [insertA_not_mem a slot.id word hun,
              eraseA_append a slot.id word hun] at h
            exact ih g a g' a' hun h

theorem backtrack_restore :
    ∀ (fuel : Nat) (slots : List Slot) (g : Grid) (doms : Domains)
      (a : Assign) (forbid : Bool) (g' : Grid) (a' : Assign),
      (∀ s ∈ slots, s.cells.Nodup) →
      backtrack fuel slots g doms a forbid = some (false, g', a') →
      g' = g ∧ a' = a := by
  intro fuel
  induction fuel with
  | zero =>
    intro slots g doms a forbid g' a' _ h
    cases h
  | succ fuel ih =>
    intro slots g doms a forbid g' a' hc h
    simp only [backtrack] at h
    by_cases hlen : a.length = slots.length
    · rw [if_pos hlen] at h
      simp at h
    · rw [if_neg hlen] at h
      cases hsel : select_unassigned_slot slots a doms g with
      | none =>
        rw [hsel] at h
        simp only [Option.some.injEq, Prod.mk.injEq] at h
        exact ⟨h.2.1.symm, h.2.2.symm⟩
      | some p =>
        obtain ⟨slot, count⟩ := p
        rw [hsel] at h
        change (if count = 0 then some (false, g, a)
          else tryWords (fun g' a' => backtrack fuel slots g' doms a' forbid)
            slot forbid (lookupD doms slot.id) g a) = some (false, g', a') at h
        by_cases hcnt : count = 0
        · rw [if_pos hcnt] at h
          simp only [Option.some.injEq, Prod.mk.injEq] at h
          exact ⟨h.2.1.symm, h.2.2.symm⟩
        · rw [if_neg hcnt] at h
          obtain ⟨hmem, hun, _⟩ := select_some_spec slots a doms g slot count hsel
          exact tryWords_restore
            (fun g' a' => backtrack fuel slots g' doms a' forbid) slot forbid
            (fun g0 a0 g0' a0' hb => ih slots g0 doms a0 forbid g0' a0' hc hb)
            (hc slot hmem) (lookupD doms slot.id) g a g' a' hun h

/-! Sufficiency of the depth budget. -/

/-- Number of slots not yet assigned; strictly decreases at each nesting
level of the search. -/
def unassignedCount (slots : List Slot) (a : Assign) : Nat :=
  (slots.filter fun s => (lookupA a s.id).isNone).length

theorem filter_length_mono {α : Type} (l : List α) (p q : α → Bool)
    (h : ∀ x ∈ l, p x = true → q x = true) :
    (l.filter p).length ≤ (l.filter q).length := by
  induction l with
  | nil => exact Nat.le_refl _
  | cons x rest ih =>
    have ih' := ih (fun y hy => h y (List.mem_cons_of_mem x hy))
    by_cases hp : p x = true
    · rw [List.filter_cons_of_pos hp, List.filter_cons_of_pos (h x (List.mem_cons_self x rest) hp)]
      simpa using ih'
    · rw [List.filter_cons_of_neg (by simpa using hp)]
      by_cases hq : q x = true
      · rw [List.filter_cons_of_pos hq]
        exact Nat.le_succ_of_le ih'
      · rw [List.filter_cons_of_neg (by simpa using hq)]
        exact ih'

theorem filter_length_lt {α : Type} (l : List α) (p q : α → Bool)
    (hpq : ∀ x ∈ l, p x = true → q x = true) (x0 : α) (hx0 : x0 ∈ l)
    (hq : q x0 = true) (hp : p x0 = false) :
    (l.filter p).length < (l.filter q).length := by
  induction l with
  | nil => cases hx0
  | cons x rest ih =>
    rcases List.mem_cons.mp hx0 with he | hmem
    · subst he
      rw [List.filter_cons_of_neg (by simp [hp]), List.filter_cons_of_pos hq]
      have := filter_length_mono rest p q (fun y hy => hpq y (List.mem_cons_of_mem x0 hy))
      simpa using Nat.lt_succ_of_le this
    · have ih' := ih (fun y hy => hpq y (List.mem_cons_of_mem x hy)) hmem
      by_cases hpx : p x = true
      · rw [List.filter_cons_of_pos hpx,
          List.filter_cons_of_pos (hpq x (List.mem_cons_self x rest) hpx)]
        simpa using ih'
      · rw [List.filter_cons_of_neg (by simpa using hpx)]
        by_cases hqx : q x = true
        · rw [List.filter_cons_of_pos hqx]
          exact Nat.lt_succ_of_lt ih'
        · rw [List.filter_cons_of_neg (by simpa using hqx)]
          exact ih'

theorem unassignedCount_insert_lt (slots : List Slot) (a : Assign) (slot : Slot)
    (w : Word) (hmem : slot ∈ slots) (hun : lookupA a slot.id = none) :
    unassignedCount slots (insertA a slot.id w) < unassignedCount slots a := by
  unfold unassignedCount
  apply filter_length_lt _ _ _ ?_ slot hmem (by rw [hun]; rfl) ?_
  · intro s hs hp
    rw [insertA_not_mem a slot.id w hun] at hp
    by_cases he : s.id = slot.id
    · rw [he, lookupA_append_self a slot.id w hun] at hp
      cases hp
    · rw [lookupA_append_ne a slot.id s.id w he] at hp
      exact hp
  · rw [insertA_not_mem a slot.id w hun, lookupA_append_self a slot.id w hun]
    rfl

theorem tryWords_ne_none (bt : Grid → Assign → Option (Bool × Grid × Assign))
    (slot : Slot) (forbid : Bool) (slots : List Slot) (fuel : Nat)
    (hnd : slot.cells.Nodup) (hmem : slot ∈ slots)
    (hbt_some : ∀ g1 a1, unassignedCount slots a1 < fuel → bt g1 a1 ≠ none)
    (hbt_restore : ∀ g1 a1 g1' a1',
      bt g1 a1 = some (false, g1', a1') → g1' = g1 ∧ a1' = a1) :
    ∀ (words : List Word) (g : Grid) (a : Assign),
      lookupA a slot.id = none → unassignedCount slots a ≤ fuel →
      tryWords bt slot forbid words g a ≠ none := by
  intro words
  induction words with
  | nil =>
    intro g a _ _ h
    cases h
  | cons word ws ih =>
    intro g a hun hle h
    simp only [tryWords] at h
    by_cases h1 : forbid = true ∧ word ∈ valuesA a
    · rw [if_pos h1] at h
      exact ih g a hun hle h
    · rw [if_neg h1] at h
      by_cases h2 : is_consistent word slot g = false
      · rw [if_pos h2] at h
        exact ih g a hun hle h
      · rw [if_neg h2] at h
        cases hb : bt (apply_word word slot g).2 (insertA a slot.id word) with
        | none =>
          exact hbt_some _ _
            (Nat.lt_of_lt_of_le (unassignedCount_insert_lt slots a slot word hmem hun) hle)
            hb
        | some t =>
          obtain ⟨b, g2, a2⟩ := t
          rw [hb] at h
          cases b with
          | true => cases h
          | false =>
            obtain ⟨hg2, ha2⟩ := hbt_restore _ _ _ _ hb
            change tryWords bt slot forbid ws (undo (apply_word word slot g).1 g2)
              (eraseA a2 slot.id) = none at h
            rw [hg2, ha2, apply_word_undo word slot g hnd,
              insertA_not_mem a slot.id word hun,
              eraseA_append a slot.id word hun] at h
            exact ih g a hun hle h

/-- The depth budget slots.length + 1 passed by solve_crossword is always
sufficient: the search never returns the out-of-budget marker. -/
theorem backtrack_ne_none :
    ∀ (fuel : Nat) (slots : List Slot) (g : Grid) (doms : Domains)
      (a : Assign) (forbid : Bool),
      (∀ s ∈ slots, s.cells.Nodup) →
      unassignedCount slots a < fuel →
      backtrack fuel slots g doms a forbid ≠ none := by
  intro fuel
  induction fuel with
  | zero =>
    intro slots g doms a forbid _ hlt
    omega
  | succ fuel ih =>
    intro slots g doms a forbid hc hlt h
    simp only [backtrack] at h
    by_cases hlen : a.length = slots.length
    · rw [if_pos hlen] at h
      cases h
    · rw [if_neg hlen] at h
      cases hsel : select_unassigned_slot slots a doms g with
      | none =>
        rw [hsel] at h
        cases h
      | some p =>
        obtain ⟨slot, count⟩ := p
        rw [hsel] at h
        change (if count = 0 then some (false, g, a)
          else tryWords (fun g' a' => backtrack fuel slots g' doms a' forbid)
            slot forbid (lookupD doms slot.id) g a) = none at h
        by_cases hcnt : count = 0
        · rw [if_pos hcnt] at h
          cases h
        · rw [if_neg hcnt] at h
          obtain ⟨hmem, hun, _⟩ := select_some_spec slots a doms g slot count hsel
          exact tryWords_ne_none
            (fun g' a' => backtrack fuel slots g' doms a' forbid) slot forbid slots
            fuel (hc slot hmem) hmem
            (fun g1 a1 hlt1 => ih slots g1 doms a1 forbid hc hlt1)
            (fun g1 a1 g1' a1' hb =>
              backtrack_restore fuel slots g1 doms a1 forbid g1' a1' hc hb)
            (lookupD doms slot.id) g a hun (by omega) h

/-- Destructuring of a normal solver result into its pipeline stages. -/
theorem solve_ok_cases (raw : List (List Char)) (dict : List Word)
    (forbid : Bool) (b : Bool) (g' : Grid) (a' : Assign) (slots : List Slot)
    (h : solve_crossword raw dict forbid = .ok (b, g', a', slots)) :
    ∃ g0, parse_grid raw = .ok (g0, slots) ∧ slots ≠ [] ∧
      backtrack (slots.length + 1) slots g0 (build_domains slots dict) []
        forbid = some (b, g', a') := by
  unfold solve_crossword at h
  cases hp : parse_grid raw with
  | error e =>
    rw [hp] at h
    cases h
  | ok p =>
    obtain ⟨g0, sl⟩ := p
    rw [hp] at h
    change (if sl.isEmpty then
        (Except.error "no slots of length at least 2" :
          Except String (Bool × Grid × Assign × List Slot))
      else
        match backtrack (sl.length + 1) sl g0 (build_domains sl dict) [] forbid with
        | none => Except.error "search depth exhausted"
        | some (success, g2, a2) => Except.ok (success, g2, a2, sl)) =
      Except.ok (b, g', a', slots) at h
    by_cases hemp : sl.isEmpty
    · rw [if_pos hemp] at h
      cases h
    · rw [if_neg hemp] at h
      cases hbt : backtrack (sl.length + 1) sl g0 (build_domains sl dict) [] forbid with
      | none =>
        rw [hbt] at h
        cases h
      | some t =>
        obtain ⟨b2, g2, a2⟩ := t
        rw [hbt] at h
        change Except.ok (b2, g2, a2, sl) = Except.ok (b, g', a', slots) at h
        injection h with h'
        obtain ⟨e1, e2, e3, e4⟩ : b2 = b ∧ g2 = g' ∧ a2 = a' ∧ sl = slots := by
          simpa [Prod.ext_iff] using h'
        subst e1; subst e2; subst e3; subst e4
        refine ⟨g0, rfl, ?_, hbt⟩
        intro he
        rw [he] at hemp
        exact hemp rfl

/-- Claim C9: a failing backtrack call leaves grid and assignment exactly as
on entry; consequently a failing solve returns the parsed input grid (which
is the raw grid: blocked and pre-fixed cells intact, open cells still the
open marker) and the empty assignment. -/
theorem C9_failure_restores :
    (∀ (fuel : Nat) (slots : List Slot) (g : Grid) (doms : Domains)
       (a : Assign) (forbid : Bool) (g' : Grid) (a' : Assign),
       (∀ s ∈ slots, s.cells.Nodup) →
       backtrack fuel slots g doms a forbid = some (false, g', a') →
       g' = g ∧ a' = a) ∧
    (∀ (raw : List (List Char)) (dict : List Word) (forbid : Bool)
       (g' : Grid) (a' : Assign) (slots : List Slot),
       solve_crossword raw dict forbid = .ok (false, g', a', slots) →
       g' = raw ∧ a' = []) := by
  constructor
  · exact fun fuel slots g doms a forbid g' a' hc h =>
      backtrack_restore fuel slots g doms a forbid g' a' hc h
  · intro raw dict forbid g' a' slots h
    obtain ⟨g0, hp, _, hbt⟩ := solve_ok_cases raw dict forbid false g' a' slots h
    have hc := parse_slots_nodup raw g0 slots hp
    obtain ⟨hg0, _⟩ := parse_grid_ok raw g0 slots hp
    obtain ⟨h1, h2⟩ := backtrack_restore _ slots g0 _ [] forbid g' a' hc hbt
    exact ⟨by rw [h1, hg0], h2⟩

/-- Witness for C9 at a concrete unsolvable input. -/
theorem C9_failure_restores_witness :
    solve_crossword [['A', 'B']] [] false =
      .ok (false, [['A', 'B']], [], [Slot.mk 0 [(0, 0), (0, 1)]]) ∧
    (([['A', 'B']] : Grid) = [['A', 'B']] ∧ ([] : Assign) = []) :=
  ⟨by decide,
    C9_failure_restores.2 [['A', 'B']] [] false [['A', 'B']] []
      [Slot.mk 0 [(0, 0), (0, 1)]] (by decide)⟩

/-! The no-reuse constraint (claim C6). -/

theorem valuesA_append_nodup (a : Assign) (w : Word)
    (h1 : (valuesA a).Nodup) (h2 : w ∉ valuesA a) :
    (valuesA a ++ [w]).Nodup := by
  have hperm : List.Perm (valuesA a ++ [w]) (w :: valuesA a) :=
    List.perm_append_singleton w _
  rw [hperm.nodup_iff]
  exact List.nodup_cons.mpr ⟨h2, h1⟩

theorem tryWords_values_nodup (bt : Grid → Assign → Option (Bool × Grid × Assign))
    (slot : Slot) (forbid : Bool)
    (hbt_restore : ∀ g1 a1 g1' a1',
      bt g1 a1 = some (false, g1', a1') → g1' = g1 ∧ a1' = a1)
    (hbt_nodup : ∀ g1 a1 g1' a1', (forbid = true → (valuesA a1).Nodup) →
      bt g1 a1 = some (true, g1', a1') → (forbid = true → (valuesA a1').Nodup))
    (hnd : slot.cells.Nodup) :
    ∀ (words : List Word) (g : Grid) (a : Assign) (g' : Grid) (a' : Assign),
      lookupA a slot.id = none →
      (forbid = true → (valuesA a).Nodup) →
      tryWords bt slot forbid words g a = some (true, g', a') →
      (forbid = true → (valuesA a').Nodup) := by
  intro words
  induction words with
  | nil =>
    intro g a g' a' _ _ h
    simp [tryWords] at h
  | cons word ws ih =>
    intro g a g' a' hun hnodup h
    simp only [tryWords] at h
    by_cases h1 : forbid = true ∧ word ∈ valuesA a
    · rw [if_pos h1] at h
      exact ih g a g' a' hun hnodup h
    · rw [if_neg h1] at h
      by_cases h2 : is_consistent word slot g = false
      · rw [if_pos h2] at h
        exact ih g a g' a' hun hnodup h
      · rw [if_neg h2] at h
        cases hb : bt (apply_word word slot g).2 (insertA a slot.id word) with
        | none =>
          rw [hb] at h
          cases h
        | some t =>
          obtain ⟨b, g2, a2⟩ := t
          rw [hb] at h
          cases b with
          | true =>
            change some (true, g2, a2) = some (true, g', a') at h
            obtain ⟨e2, e3⟩ : g2 = g' ∧ a2 = a' := by
              simpa [Prod.ext_iff] using h
            subst e2; subst e3
            apply hbt_nodup _ _ _ _ ?_ hb
            intro hf
            rw [insertA_not_mem a slot.id word hun, valuesA_append]
            exact valuesA_append_nodup a word (hnodup hf)
              (fun hw => h1 ⟨hf, hw⟩)
          | false =>
            obtain ⟨hg2, ha2⟩ := hbt_restore _ _ _ _ hb
            change tryWords bt slot forbid ws (undo (apply_word word slot g).1 g2)
              (eraseA a2 slot.id) = some (true, g', a') at h
            rw [hg2, ha2, apply_word_undo word slot g hnd,
              insertA_not_mem a slot.id word hun,
              eraseA_append a slot.id word hun] at h
            exact ih g a g' a' hun hnodup h

theorem backtrack_values_nodup :
    ∀ (fuel : Nat) (slots : List Slot) (g : Grid) (doms : Domains)
      (a : Assign) (forbid : Bool) (g' : Grid) (a' : Assign),
      (∀ s ∈ slots, s.cells.Nodup) →
      (forbid = true → (valuesA a).Nodup) →
      backtrack fuel slots g doms a forbid = some (true, g', a') →
      (forbid = true → (valuesA a').Nodup) := by
  intro fuel
  induction fuel with
  | zero =>
    intro slots g doms a forbid g' a' _ _ h
    cases h
  | succ fuel ih =>
    intro slots g doms a forbid g' a' hc hnodup h
    simp only [backtrack] at h
    by_cases hlen : a.length = slots.length
    · rw [if_pos hlen] at h
      obtain ⟨e2, e3⟩ : g = g' ∧ a = a' := by
        simpa [Prod.ext_iff] using h
      subst e2; subst e3
      exact hnodup
    · rw [if_neg hlen] at h
      cases hsel : select_unassigned_slot slots a doms g with
      | none =>
        rw [hsel] at h
        simp at h
      | some p =>
        obtain ⟨slot, count⟩ := p
        rw [hsel] at h
        change (if count = 0 then some (false, g, a)
          else tryWords (fun g1 a1 => backtrack fuel slots g1 doms a1 forbid)
            slot forbid (lookupD doms slot.id) g a) = some (true, g', a') at h
        by_cases hcnt : count = 0
        · rw [if_pos hcnt] at h
          simp at h
        · rw [if_neg hcnt] at h
          obtain ⟨hmem, hun, _⟩ := select_some_spec slots a doms g slot count hsel
          exact tryWords_values_nodup
            (fun g1 a1 => backtrack fuel slots g1 doms a1 forbid) slot forbid
            (fun g1 a1 g1' a1' hb =>
              backtrack_restore fuel slots g1 doms a1 forbid g1' a1' hc hb)
            (fun g1 a1 g1' a1' hnd1 hb =>
              ih slots g1 doms a1 forbid g1' a1' hc hnd1 hb)
            (hc slot hmem) (lookupD doms slot.id) g a g' a' hun hnodup h

/-- Claim C6: with the no-reuse flag set, a successful solve assigns no word
to more than one slot (the assignment's values are pairwise distinct); with
the flag clear, the same word may fill several slots, as the concrete
all-open 2 by 2 grid with the single dictionary word AA shows. -/
theorem C6_no_reuse :
    (∀ (raw : List (List Char)) (dict : List Word) (g' : Grid) (a' : Assign)
       (slots : List Slot),
       solve_crossword raw dict true = .ok (true, g', a', slots) →
       (valuesA a').Nodup) ∧
    (solve_crossword [['.', '.'], ['.', '.']] [['A', 'A']] false =
       .ok (true, [['A', 'A'], ['A', 'A']],
         [(0, ['A', 'A']), (1, ['A', 'A']), (2, ['A', 'A']), (3, ['A', 'A'])],
         [Slot.mk 0 [(0, 0), (0, 1)], Slot.mk 1 [(1, 0), (1, 1)],
          Slot.mk 2 [(0, 0), (1, 0)], Slot.mk 3 [(0, 1), (1, 1)]]) ∧
     ¬ (valuesA [(0, ['A', 'A']), (1, ['A', 'A']), (2, ['A', 'A']),
         (3, ['A', 'A'])]).Nodup) := by
  constructor
  · intro raw dict g' a' slots h
    obtain ⟨g0, hp, _, hbt⟩ := solve_ok_cases raw dict true true g' a' slots h
    have hc := parse_slots_nodup raw g0 slots hp
    exact backtrack_values_nodup _ slots g0 _ [] true g' a' hc
      (fun _ => List.nodup_nil) hbt rfl
  · exact ⟨by decide, by decide⟩

/-- Witness for C6 at a concrete no-reuse success. -/
theorem C6_no_reuse_witness :
    solve_crossword [['.', '.']] [['a', 't']] true =
      .ok (true, [['A', 'T']], [(0, ['A', 'T'])], [Slot.mk 0 [(0, 0), (0, 1)]]) ∧
    (valuesA [(0, ['A', 'T'])]).Nodup :=
  ⟨by decide,
    C6_no_reuse.1 [['.', '.']] [['a', 't']] [['A', 'T']] [(0, ['A', 'T'])]
      [Slot.mk 0 [(0, 0), (0, 1)]] (by decide)⟩

/-! Invariants of a successful search (claims C1 and C8). -/

/-- Equal dimensions: the grids have the same row count and row lengths. -/
def dimsEq (g0 g : Grid) : Prop :=
  g.length = g0.length ∧
    ∀ i : Nat, (g[i]?.getD []).length = (g0[i]?.getD []).length

theorem dimsEq_refl (g : Grid) : dimsEq g g := ⟨rfl, fun _ => rfl⟩

theorem inBnd_of_dimsEq (g0 g : Grid) (p : Nat × Nat) (hd : dimsEq g0 g)
    (h : inBnd g0 p) : inBnd g p := by
  obtain ⟨hd1, hd2⟩ := hd
  obtain ⟨h1, h2⟩ := h
  exact ⟨by rw [hd1]; exact h1, by rw [hd2 p.1]; exact h2⟩

theorem applyCells_dims :
    ∀ (l : List (Char × (Nat × Nat))) (g : Grid), dimsEq g (applyCells l g).2
  | [], g => dimsEq_refl g
  | (ch, (r, c)) :: rest, g => by
    obtain ⟨h1, h2⟩ := applyCells_dims rest (setCell g r c ch)
    refine ⟨?_, ?_⟩
    · rw [show (applyCells ((ch, (r, c)) :: rest) g).2 =
        (applyCells rest (setCell g r c ch)).2 from rfl, h1, length_setCell]
    · intro i
      rw [show (applyCells ((ch, (r, c)) :: rest) g).2 =
        (applyCells rest (setCell g r c ch)).2 from rfl, h2 i, rowlen_setCell]

theorem dimsEq_trans (g0 g1 g2 : Grid) (h1 : dimsEq g0 g1) (h2 : dimsEq g1 g2) :
    dimsEq g0 g2 := by
  obtain ⟨h11, h12⟩ := h1
  obtain ⟨h21, h22⟩ := h2
  exact ⟨h21.trans h11, fun i => (h22 i).trans (h12 i)⟩

/-- First components of a zip form the matching prefix of the first list. -/
theorem zip_map_fst :
    ∀ (l₁ : List Char) (l₂ : List (Nat × Nat)),
      (l₁.zip l₂).map (·.1) = l₁.take l₂.length
  | [], _ => by simp
  | _ :: _, [] => by simp
  | a :: l₁, b :: l₂ => by
    simp only [List.zip_cons_cons, List.map_cons, List.length_cons, List.take_succ_cons]
    rw [zip_map_fst l₁ l₂]

theorem applyCells_spells :
    ∀ (l : List (Char × (Nat × Nat))) (g : Grid),
      (l.map (·.2)).Nodup → (∀ p ∈ l.map (·.2), inBnd g p) →
      readCells (applyCells l g).2 (l.map (·.2)) = l.map (·.1)
  | [], _, _, _ => rfl
  | (ch, (r, c)) :: rest, g, hnd, hbnd => by
    simp only [List.map_cons, List.nodup_cons] at hnd
    obtain ⟨hh, ht⟩ := hnd
    simp only [List.map_cons, readCells, applyCells]
    have hb0 : inBnd g (r, c) := hbnd (r, c) (by simp)
    have hhead :
        getCell (applyCells rest (setCell g r c ch)).2 r c = ch := by
      rw [applyCells_snd_not_mem rest (setCell g r c ch) r c hh]
      exact getCell_setCell_self g r c ch hb0
    have htail := applyCells_spells rest (setCell g r c ch) ht
      (fun p hp => (inBnd_setCell g r c ch p).mpr
        (hbnd p (by simp only [List.map_cons]; exact List.mem_cons_of_mem _ hp)))
    simp only [readCells] at htail
    rw [hhead, htail]

/-- Writing a word of matching length into a slot with distinct in-bounds
cells makes the grid spell that word along the slot. -/
theorem apply_word_spells (word : Word) (slot : Slot) (g : Grid)
    (hlen : word.length = slot.cells.length) (hnd : slot.cells.Nodup)
    (hbnd : ∀ p ∈ slot.cells, inBnd g p) :
    readCells (apply_word word slot g).2 slot.cells = word := by
  have hsnd : (word.zip slot.cells).map (·.2) = slot.cells := by
    rw [zip_map_snd, hlen, List.take_length]
  have hfst : (word.zip slot.cells).map (·.1) = word := by
    rw [zip_map_fst, ← hlen, List.take_length]
  have := applyCells_spells (word.zip slot.cells) g
    (by rw [hsnd]; exact hnd) (by rw [hsnd]; exact hbnd)
  rw [hsnd, hfst] at this
  exact this

/-- The pairwise reading of the consistency check. -/
theorem is_consistent_pairs (word : Word) (slot : Slot) (g : Grid)
    (h : is_consistent word slot g = true) :
    ∀ q ∈ word.zip slot.cells,
      getCell g q.2.1 q.2.2 = '.' ∨ getCell g q.2.1 q.2.2 = q.1 := by
  intro q hq
  have := List.all_eq_true.mp h q hq
  rcases Bool.or_eq_true _ _ |>.mp this with h' | h'
  · exact Or.inl (by simpa using h')
  · exact Or.inr (by simpa using h')

/-- Applying a consistent word never changes a cell that is not the open
marker (it rewrites open cells and re-writes matching letters in place). -/
theorem applyCells_mono :
    ∀ (l : List (Char × (Nat × Nat))) (g : Grid),
      (l.map (·.2)).Nodup →
      (∀ q ∈ l, getCell g q.2.1 q.2.2 = '.' ∨ getCell g q.2.1 q.2.2 = q.1) →
      ∀ r c, getCell g r c ≠ '.' →
        getCell (applyCells l g).2 r c = getCell g r c
  | [], _, _, _, _, _, _ => rfl
  | (ch, (r0, c0)) :: rest, g, hnd, hq, r, c, hne => by
    simp only [List.map_cons, List.nodup_cons] at hnd
    obtain ⟨hh, ht⟩ := hnd
    simp only [applyCells]
    by_cases hp : (r, c) = (r0, c0)
    · have hrc : r = r0 ∧ c = c0 := by
        refine ⟨congrArg Prod.fst hp, congrArg Prod.snd hp⟩
      obtain ⟨e1, e2⟩ := hrc
      subst e1; subst e2
      have hch : getCell g r c = ch := by
        rcases hq (ch, (r, c)) (List.mem_cons_self _ _) with h' | h'
        · exact absurd h' hne
        · exact h'
      rw [← hch, setCell_getCell_self]
      exact applyCells_mono rest g ht
        (fun q hq' => hq q (List.mem_cons_of_mem _ hq')) r c hne
    · have hcomp : r ≠ r0 ∨ c ≠ c0 := by
        by_contra hcon
        push_neg at hcon
        exact hp (by rw [hcon.1, hcon.2])
    -- pair hypotheses transfer to the once-written grid
      have hq' : ∀ q ∈ rest, getCell (setCell g r0 c0 ch) q.2.1 q.2.2 = '.' ∨
          getCell (setCell g r0 c0 ch) q.2.1 q.2.2 = q.1 := by
        intro q hq'
        have hne2 : q.2 ≠ (r0, c0) := by
          intro he
          exact hh (by rw [← he]; exact List.mem_map_of_mem _ hq')
        have : getCell (setCell g r0 c0 ch) q.2.1 q.2.2 = getCell g q.2.1 q.2.2 := by
          apply getCell_setCell_ne
          by_contra hcon
          push_neg at hcon
          exact hne2 (by rw [← hcon.1, ← hcon.2])
        rw [this]
        exact hq q (List.mem_cons_of_mem _ hq')
      have hg1 : getCell (setCell g r0 c0 ch) r c = getCell g r c :=
        getCell_setCell_ne g r0 c0 ch r c hcomp
      rw [applyCells_mono rest (setCell g r0 c0 ch) ht hq' r c (by rw [hg1]; exact hne),
        hg1]

theorem apply_word_mono (word : Word) (slot : Slot) (g : Grid)
    (hcons : is_consistent word slot g = true) (hnd : slot.cells.Nodup) :
    ∀ r c, getCell g r c ≠ '.' →
      getCell (apply_word word slot g).2 r c = getCell g r c := by
  intro r c hne
  unfold apply_word
  apply applyCells_mono _ _ ?_ (is_consistent_pairs word slot g hcons) r c hne
  rw [zip_map_snd]
  exact hnd.sublist (List.take_sublist _ _)

theorem nodup_append_single {α : Type} (l : List α) (x : α)
    (h1 : l.Nodup) (h2 : x ∉ l) : (l ++ [x]).Nodup := by
  have hperm : List.Perm (l ++ [x]) (x :: l) := List.perm_append_singleton x l
  rw [hperm.nodup_iff]
  exact List.nodup_cons.mpr ⟨h2, h1⟩

theorem slots_id_inj (slots : List Slot) (hid : (slots.map (·.id)).Nodup)
    (s1 : Slot) (h1 : s1 ∈ slots) (s2 : Slot) (h2 : s2 ∈ slots)
    (he : s1.id = s2.id) : s1 = s2 :=
  List.inj_on_of_nodup_map hid h1 h2 he

/-- Static facts about the inputs of the search, established once from
parse_grid and build_domains. -/
def GoodInput (slots : List Slot) (doms : Domains) (g0 : Grid) : Prop :=
  (∀ s ∈ slots, s.cells.Nodup) ∧
  (∀ s ∈ slots, ∀ p ∈ s.cells, inBnd g0 p) ∧
  (slots.map (·.id)).Nodup ∧
  (∀ s ∈ slots, ∀ w ∈ lookupD doms s.id, w.length = s.cells.length) ∧
  (∀ s ∈ slots, ∀ w ∈ lookupD doms s.id, '.' ∉ w)

/-- The state invariant of the search: dimensions are unchanged, non-open
cells of the initial grid are untouched, assignment keys are distinct slot
ids, and every assigned slot is spelled in the grid by its domain word. -/
def SearchInv (slots : List Slot) (doms : Domains) (g0 g : Grid) (a : Assign) :
    Prop :=
  dimsEq g0 g ∧
  (∀ r c, getCell g0 r c ≠ '.' → getCell g r c = getCell g0 r c) ∧
  (∀ k ∈ a.map (·.1), ∃ s ∈ slots, s.id = k) ∧
  (a.map (·.1)).Nodup ∧
  (∀ s ∈ slots, ∀ w, lookupA a s.id = some w →
    w ∈ lookupD doms s.id ∧ readCells g s.cells = w)

/-- One assignment step preserves the search invariant. -/
theorem SearchInv_apply (slots : List Slot) (doms : Domains) (g0 : Grid)
    (hgood : GoodInput slots doms g0) (g : Grid) (a : Assign) (slot : Slot)
    (word : Word) (hinv : SearchInv slots doms g0 g a) (hmem : slot ∈ slots)
    (hun : lookupA a slot.id = none) (hword : word ∈ lookupD doms slot.id)
    (hcons : is_consistent word slot g = true) :
    SearchInv slots doms g0 (apply_word word slot g).2 (insertA a slot.id word) := by
  obtain ⟨hcnd, hcbnd, hcid, hclen, hcdot⟩ := hgood
  obtain ⟨hdims, hmono, hkeys, hknd, hsp⟩ := hinv
  have hnd := hcnd slot hmem
  refine ⟨?_, ?_, ?_, ?_, ?_⟩
  · exact dimsEq_trans g0 g _ hdims (applyCells_dims _ g)
  · intro r c hne
    have hgval : getCell g r c = getCell g0 r c := hmono r c hne
    rw [apply_word_mono word slot g hcons hnd r c (by rw [hgval]; exact hne)]
    exact hgval
  · intro k hk
    rw [insertA_not_mem a slot.id word hun, keysA_append] at hk
    rcases List.mem_append.mp hk with hk | hk
    · exact hkeys k hk
    · have hks : k = slot.id := by simpa using hk
      exact ⟨slot, hmem, hks.symm⟩
  · rw [insertA_not_mem a slot.id word hun, keysA_append]
    exact nodup_append_single _ _ hknd (lookupA_none_not_mem_keys a slot.id hun)
  · intro s hs w' hw'
    rw [insertA_not_mem a slot.id word hun] at hw'
    by_cases he : s.id = slot.id
    · have hss : s = slot := slots_id_inj slots hcid s hs slot hmem he
      subst hss
      rw [lookupA_append_self a s.id word hun] at hw'
      injection hw' with hw'
      subst hw'
      refine ⟨hword, ?_⟩
      apply apply_word_spells word s g
        ((hclen s hs word hword).symm ▸ rfl) hnd
      · intro p hp
        exact inBnd_of_dimsEq g0 g p hdims (hcbnd s hs p hp)
    · rw [lookupA_append_ne a slot.id s.id word he] at hw'
      obtain ⟨hdom, hspell⟩ := hsp s hs w' hw'
      refine ⟨hdom, ?_⟩
      rw [← hspell]
      unfold readCells
      apply List.map_congr_left
      intro p hp
      apply apply_word_mono word slot g hcons hnd
      have hpi : getCell g p.1 p.2 ∈ w' := by
        rw [← hspell]
        exact List.mem_map_of_mem _ hp
      intro hdot
      rw [hdot] at hpi
      exact hcdot s hs w' hdom hpi

theorem tryWords_success_inv (slots : List Slot) (doms : Domains) (g0 : Grid)
    (hgood : GoodInput slots doms g0)
    (bt : Grid → Assign → Option (Bool × Grid × Assign)) (slot : Slot)
    (forbid : Bool)
    (hbt_restore : ∀ g1 a1 g1' a1',
      bt g1 a1 = some (false, g1', a1') → g1' = g1 ∧ a1' = a1)
    (hbt_inv : ∀ g1 a1 g1' a1', SearchInv slots doms g0 g1 a1 →
      bt g1 a1 = some (true, g1', a1') →
      SearchInv slots doms g0 g1' a1' ∧ a1'.length = slots.length)
    (hmem : slot ∈ slots) :
    ∀ (words : List Word) (g : Grid) (a : Assign) (g' : Grid) (a' : Assign),
      (∀ w ∈ words, w ∈ lookupD doms slot.id) →
      lookupA a slot.id = none →
      SearchInv slots doms g0 g a →
      tryWords bt slot forbid words g a = some (true, g', a') →
      SearchInv slots doms g0 g' a' ∧ a'.length = slots.length := by
  intro words
  induction words with
  | nil =>
    intro g a g' a' _ _ _ h
    simp [tryWords] at h
  | cons word ws ih =>
    intro g a g' a' hsub hun hinv h
    simp only [tryWords] at h
    by_cases h1 : forbid = true ∧ word ∈ valuesA a
    · rw [if_pos h1] at h
      exact ih g a g' a' (fun w hw => hsub w (List.mem_cons_of_mem _ hw)) hun hinv h
    · rw [if_neg h1] at h
      by_cases h2 : is_consistent word slot g = false
      · rw [if_pos h2] at h
        exact ih g a g' a' (fun w hw => hsub w (List.mem_cons_of_mem _ hw)) hun hinv h
      · rw [if_neg h2] at h
        have hcons : is_consistent word slot g = true := by
          cases hcc : is_consistent word slot g with
          | true => rfl
          | false => exact absurd hcc h2
        cases hb : bt (apply_word word slot g).2 (insertA a slot.id word) with
        | none =>
          rw [hb] at h
          cases h
        | some t =>
          obtain ⟨b, g2, a2⟩ := t
          rw [hb] at h
          cases b with
          | true =>
            change some (true, g2, a2) = some (true, g', a') at h
            obtain ⟨e2, e3⟩ : g2 = g' ∧ a2 = a' := by
              simpa [Prod.ext_iff] using h
            subst e2; subst e3
            exact hbt_inv _ _ _ _
              (SearchInv_apply slots doms g0 hgood g a slot word hinv hmem hun
                (hsub word (List.mem_cons_self _ _)) hcons) hb
          | false =>
            obtain ⟨hg2, ha2⟩ := hbt_restore _ _ _ _ hb
            change tryWords bt slot forbid ws (undo (apply_word word slot g).1 g2)
              (eraseA a2 slot.id) = some (true, g', a') at h
            rw [hg2, ha2, apply_word_undo word slot g (hgood.1 slot hmem),
              insertA_not_mem a slot.id word hun,
              eraseA_append a slot.id word hun] at h
            exact ih g a g' a' (fun w hw => hsub w (List.mem_cons_of_mem _ hw)) hun hinv h

theorem backtrack_success_inv :
    ∀ (fuel : Nat) (slots : List Slot) (doms : Domains) (g0 : Grid) (g : Grid)
      (a : Assign) (forbid : Bool) (g' : Grid) (a' : Assign),
      GoodInput slots doms g0 →
      SearchInv slots doms g0 g a →
      backtrack fuel slots g doms a forbid = some (true, g', a') →
      SearchInv slots doms g0 g' a' ∧ a'.length = slots.length := by
  intro fuel
  induction fuel with
  | zero =>
    intro slots doms g0 g a forbid g' a' _ _ h
    cases h
  | succ fuel ih =>
    intro slots doms g0 g a forbid g' a' hgood hinv h
    simp only [backtrack] at h
    by_cases hlen : a.length = slots.length
    · rw [if_pos hlen] at h
      obtain ⟨e2, e3⟩ : g = g' ∧ a = a' := by
        simpa [Prod.ext_iff] using h
      subst e2; subst e3
      exact ⟨hinv, hlen⟩
    · rw [if_neg hlen] at h
      cases hsel : select_unassigned_slot slots a doms g with
      | none =>
        rw [hsel] at h
        simp at h
      | some p =>
        obtain ⟨slot, count⟩ := p
        rw [hsel] at h
        change (if count = 0 then some (false, g, a)
          else tryWords (fun g1 a1 => backtrack fuel slots g1 doms a1 forbid)
            slot forbid (lookupD doms slot.id) g a) = some (true, g', a') at h
        by_cases hcnt : count = 0
        · rw [if_pos hcnt] at h
          simp at h
        · rw [if_neg hcnt] at h
          obtain ⟨hmem, hun, _⟩ := select_some_spec slots a doms g slot count hsel
          exact tryWords_success_inv slots doms g0 hgood
            (fun g1 a1 => backtrack fuel slots g1 doms a1 forbid) slot forbid
            (fun g1 a1 g1' a1' hb =>
              backtrack_restore fuel slots g1 doms a1 forbid g1' a1' hgood.1 hb)
            (fun g1 a1 g1' a1' hinv1 hb =>
              ih slots doms g0 g1 a1 forbid g1' a1' hgood hinv1 hb)
            hmem (lookupD doms slot.id) g a g' a' (fun w hw => hw) hun hinv h

/-- A full-length assignment with distinct keys among distinct slot ids
assigns every slot. -/
theorem assignment_total (slots : List Slot) (a : Assign)
    (hkeys : ∀ k ∈ a.map (·.1), ∃ s ∈ slots, s.id = k)
    (hknd : (a.map (·.1)).Nodup) (hid : (slots.map (·.id)).Nodup)
    (hlen : a.length = slots.length) :
    ∀ s ∈ slots, ∃ w, lookupA a s.id = some w := by
  have hsub : a.map (·.1) ⊆ slots.map (·.id) := by
    intro k hk
    obtain ⟨s, hs, he⟩ := hkeys k hk
    rw [← he]
    exact List.mem_map_of_mem _ hs
  have hsp : (a.map (·.1)).Subperm (slots.map (·.id)) := hknd.subperm hsub
  have hlen2 : (slots.map (·.id)).length ≤ (a.map (·.1)).length := by
    rw [List.length_map, List.length_map, hlen]
  have hperm := hsp.perm_of_length_le hlen2
  intro s hs
  have : s.id ∈ a.map (·.1) := hperm.mem_iff.mpr (List.mem_map_of_mem _ hs)
  exact mem_keys_lookupA_isSome a s.id this

/-- Normalized dictionary entries contain no open marker when no normalized
dictionary word does. -/
theorem lenWords_no_dot (dictionary : List Word) (L : Nat)
    (hdict : ∀ w ∈ dictionary, '.' ∉ upper (strip w)) :
    ∀ word ∈ lenWords dictionary L, '.' ∉ word := by
  intro word hw
  obtain ⟨w, hwd, hcond⟩ := List.mem_filterMap.mp hw
  simp only at hcond
  by_cases hc : strip w ≠ [] ∧ (strip w).length = L
  · rw [if_pos hc] at hcond
    injection hcond with he
    rw [← he]
    exact hdict w hwd
  · rw [if_neg hc] at hcond
    cases hcond

/-- Shared master fact about a successful solve: pre-fixed letters are
intact and every slot is assigned a domain word of its length that the
final grid spells along the slot's cells. -/
theorem solve_success_spec (raw : List (List Char)) (dict : List Word)
    (forbid : Bool) (g' : Grid) (a' : Assign) (slots : List Slot)
    (hdict : ∀ w ∈ dict, '.' ∉ upper (strip w))
    (h : solve_crossword raw dict forbid = .ok (true, g', a', slots)) :
    (∀ r c, getCell raw r c ≠ '.' → getCell g' r c = getCell raw r c) ∧
    ∀ s ∈ slots, ∃ w, lookupA a' s.id = some w ∧
      w ∈ lookupD (build_domains slots dict) s.id ∧
      w.length = s.cells.length ∧ readCells g' s.cells = w := by
  obtain ⟨g0, hp, _, hbt⟩ := solve_ok_cases raw dict forbid true g' a' slots h
  obtain ⟨hg0, _, _, hids, _⟩ := parse_grid_ok raw g0 slots hp
  have hid := parse_slots_ids_nodup raw g0 slots hp
  have hdomeq := build_domains_lookup slots dict hid
  have hgood : GoodInput slots (build_domains slots dict) g0 := by
    refine ⟨parse_slots_nodup raw g0 slots hp, parse_slots_inBnd raw g0 slots hp,
      hid, ?_, ?_⟩
    · intro s hs w hw
      rw [hdomeq s hs] at hw
      exact lenWords_length dict (slot_length s) w hw
    · intro s hs w hw
      rw [hdomeq s hs] at hw
      exact lenWords_no_dot dict (slot_length s) hdict w hw
  have hinv0 : SearchInv slots (build_domains slots dict) g0 g0 [] := by
    refine ⟨dimsEq_refl g0, fun _ _ _ => rfl, ?_, List.nodup_nil, ?_⟩
    · intro k hk
      cases hk
    · intro s _ w hw
      cases hw
  obtain ⟨⟨hdims, hmono, hkeys, hknd, hsp⟩, hlen⟩ :=
    backtrack_success_inv _ slots (build_domains slots dict) g0 g0 [] forbid
      g' a' hgood hinv0 hbt
  subst hg0
  refine ⟨hmono, ?_⟩
  intro s hs
  obtain ⟨w, hw⟩ := assignment_total slots a' hkeys hknd hid hlen s hs
  obtain ⟨hdom, hspell⟩ := hsp s hs w hw
  refine ⟨w, hw, hdom, ?_, hspell⟩
  rw [hdomeq s hs] at hdom
  exact lenWords_length dict (slot_length s) w hdom

/-- Claim C1: when solve_crossword succeeds on a well-formed grid and
dictionary (normalized words do not contain the open marker), every slot is
assigned a word whose length equals the slot's cell count, reading the
returned grid along the slot's cells spells that word, and any two slots
sharing a cell agree on the letter there (their words coincide at the
shared position). -/
theorem C1_solved_correct (raw : List (List Char)) (dict : List Word)
    (forbid : Bool) (g' : Grid) (a' : Assign) (slots : List Slot)
    (hdict : ∀ w ∈ dict, '.' ∉ upper (strip w))
    (h : solve_crossword raw dict forbid = .ok (true, g', a', slots)) :
    ∀ s ∈ slots, ∃ w, lookupA a' s.id = some w ∧ w.length = s.cells.length ∧
      readCells g' s.cells = w ∧
      ∀ s2 ∈ slots, ∀ w2 i j p, lookupA a' s2.id = some w2 →
        s.cells.get? i = some p → s2.cells.get? j = some p →
        w.get? i = w2.get? j := by
  obtain ⟨_, hslots⟩ := solve_success_spec raw dict forbid g' a' slots hdict h
  intro s hs
  obtain ⟨w, hw, _, hlen, hspell⟩ := hslots s hs
  refine ⟨w, hw, hlen, hspell, ?_⟩
  intro s2 hs2 w2 i j p hw2 hpi hpj
  obtain ⟨w2', hw2', _, _, hspell2⟩ := hslots s2 hs2
  rw [hw2'] at hw2
  injection hw2 with hw2
  subst hw2
  have e1 : w.get? i = some (getCell g' p.1 p.2) := by
    rw [← hspell]
    unfold readCells
    rw [List.get?_map, hpi]
    rfl
  have e2 : w2'.get? j = some (getCell g' p.1 p.2) := by
    rw [← hspell2]
    unfold readCells
    rw [List.get?_map, hpj]
    rfl
  rw [e1, e2]

/-- Witness for C1 at a concrete solvable input. -/
theorem C1_solved_correct_witness :
    (∀ w ∈ [['a', 't']], '.' ∉ upper (strip w)) ∧
    solve_crossword [['.', '.']] [['a', 't']] false =
      .ok (true, [['A', 'T']], [(0, ['A', 'T'])], [Slot.mk 0 [(0, 0), (0, 1)]]) ∧
    ∀ s ∈ [Slot.mk 0 [(0, 0), (0, 1)]], ∃ w,
      lookupA [(0, ['A', 'T'])] s.id = some w ∧ w.length = s.cells.length ∧
      readCells [['A', 'T']] s.cells = w ∧
      ∀ s2 ∈ [Slot.mk 0 [(0, 0), (0, 1)]], ∀ w2 i j p,
        lookupA [(0, ['A', 'T'])] s2.id = some w2 →
        s.cells.get? i = some p → s2.cells.get? j = some p →
        w.get? i = w2.get? j :=
  ⟨by decide, by decide,
    C1_solved_correct [['.', '.']] [['a', 't']] false [['A', 'T']]
      [(0, ['A', 'T'])] [Slot.mk 0 [(0, 0), (0, 1)]] (by decide) (by decide)⟩

/-! Validation errors and the no-solution outcome (claim C8). -/

theorem parse_error_iff (raw : List (List Char)) :
    (∃ e, parse_grid raw = .error e) ↔
      (raw = [] ∨ ∃ row ∈ raw, row.length ≠ (raw.head?.getD []).length) := by
  cases raw with
  | nil =>
    constructor
    · intro _
      exact Or.inl rfl
    · intro _
      exact ⟨"empty grid", rfl⟩
  | cons r0 rest =>
    simp only [parse_grid, List.head?_cons, Option.getD_some]
    constructor
    · rintro ⟨e, he⟩
      by_cases hall : (r0 :: rest).all fun row => row.length == r0.length
      · rw [if_pos hall] at he
        cases he
      · refine Or.inr ?_
        rw [List.all_eq_true] at hall
        push_neg at hall
        obtain ⟨row, hrow, hne⟩ := hall
        refine ⟨row, hrow, ?_⟩
        intro he
        exact hne (by simp [he])
    · intro hor
      rcases hor with h | ⟨row, hrow, hne⟩
      · cases h
      · have hall : ¬ ((r0 :: rest).all fun row => row.length == r0.length) := by
          intro hall
          exact hne (by simpa using List.all_eq_true.mp hall row hrow)
        exact ⟨"rows must have equal length", by rw [if_neg hall]⟩

theorem solve_error_of_parse (raw : List (List Char)) (dict : List Word)
    (forbid : Bool) (e : String) (hp : parse_grid raw = .error e) :
    solve_crossword raw dict forbid = .error e := by
  unfold solve_crossword
  rw [hp]

/-- When every slot of a parse starts unassigned, the unassigned count is
the number of slots. -/
theorem unassignedCount_nil (slots : List Slot) :
    unassignedCount slots [] = slots.length := by
  unfold unassignedCount
  have hall : (slots.filter fun s => (lookupA [] s.id).isNone) = slots :=
    List.filter_eq_self.mpr (fun s _ => rfl)
  rw [hall]

/-- On a well-formed grid with at least one slot, the solver returns
normally (the parse succeeds, the no-slot check passes, and the depth
budget suffices). -/
theorem solve_ok_of_slots (raw : List (List Char)) (dict : List Word)
    (forbid : Bool) (g0 : Grid) (slots : List Slot)
    (hp : parse_grid raw = .ok (g0, slots)) (hne : slots ≠ []) :
    ∃ b g' a', solve_crossword raw dict forbid = .ok (b, g', a', slots) := by
  have hc := parse_slots_nodup raw g0 slots hp
  have huc : unassignedCount slots [] < slots.length + 1 := by
    rw [unassignedCount_nil]
    omega
  cases hbt : backtrack (slots.length + 1) slots g0 (build_domains slots dict)
      [] forbid with
  | none =>
    exact absurd hbt
      (backtrack_ne_none _ slots g0 (build_domains slots dict) [] forbid hc huc)
  | some t =>
    obtain ⟨b, g2, a2⟩ := t
    refine ⟨b, g2, a2, ?_⟩
    unfold solve_crossword
    rw [hp]
    have hemp : slots.isEmpty = false := by
      cases slots with
      | nil => exact absurd rfl hne
      | cons _ _ => rfl
    show (if slots.isEmpty then
        (Except.error "no slots of length at least 2" :
          Except String (Bool × Grid × Assign × List Slot))
      else
        match backtrack (slots.length + 1) slots g0 (build_domains slots dict)
            [] forbid with
        | none => Except.error "search depth exhausted"
        | some (success, g2', a2') => Except.ok (success, g2', a2', slots)) =
      Except.ok (b, g2, a2, slots)
    rw [hemp, hbt]
    rfl

/-- A satisfying assignment for a parsed puzzle: a word of the slot's domain
for every slot, compatible with the pre-fixed letters of the initial grid
and agreeing with every crossing slot at each shared cell. -/
def Solvable (g0 : Grid) (slots : List Slot) (doms : Domains) : Prop :=
  ∃ f : Nat → Word, ∀ s ∈ slots,
    f s.id ∈ lookupD doms s.id ∧
    (∀ i p, s.cells.get? i = some p →
      (getCell g0 p.1 p.2 = '.' ∨ (f s.id).get? i = some (getCell g0 p.1 p.2))) ∧
    ∀ s2 ∈ slots, ∀ i j p, s.cells.get? i = some p → s2.cells.get? j = some p →
      (f s.id).get? i = (f s2.id).get? j

/-- Soundness: a successful solve witnesses a satisfying assignment. -/
theorem solve_success_solvable (raw : List (List Char)) (dict : List Word)
    (forbid : Bool) (g' : Grid) (a' : Assign) (slots : List Slot)
    (hdict : ∀ w ∈ dict, '.' ∉ upper (strip w))
    (h : solve_crossword raw dict forbid = .ok (true, g', a', slots)) :
    Solvable raw slots (build_domains slots dict) := by
  obtain ⟨hmono, hslots⟩ := solve_success_spec raw dict forbid g' a' slots hdict h
  refine ⟨fun k => (lookupA a' k).getD [], ?_⟩
  intro s hs
  obtain ⟨w, hw, hdom, hlen, hspell⟩ := hslots s hs
  refine ⟨?_, ?_, ?_⟩
  · simp only [hw, Option.getD_some]
    exact hdom
  · intro i p hpi
    by_cases hc : getCell raw p.1 p.2 = '.'
    · exact Or.inl hc
    · refine Or.inr ?_
      simp only [hw, Option.getD_some]
      have e1 : w.get? i = some (getCell g' p.1 p.2) := by
        rw [← hspell]
        unfold readCells
        rw [List.get?_map, hpi]
        rfl
      rw [e1, hmono p.1 p.2 hc]
  · intro s2 hs2 i j p hpi hpj
    obtain ⟨w2, hw2, _, _, hspell2⟩ := hslots s2 hs2
    simp only [hw, hw2, Option.getD_some]
    have e1 : w.get? i = some (getCell g' p.1 p.2) := by
      rw [← hspell]
      unfold readCells
      rw [List.get?_map, hpi]
      rfl
    have e2 : w2.get? j = some (getCell g' p.1 p.2) := by
      rw [← hspell2]
      unfold readCells
      rw [List.get?_map, hpj]
      rfl
    rw [e1, e2]

/-- Claim C8: solve_crossword raises a validation error exactly when the
raw grid is empty, has rows of unequal length, or parses to zero slots
(the error depends only on the grid, before any search state); and on a
well-formed grid with at least one slot but no satisfying assignment it
returns normally with success false instead of raising. -/
theorem C8_validation_and_failure :
    (∀ (raw : List (List Char)) (dict : List Word) (forbid : Bool),
       (∃ e, solve_crossword raw dict forbid = .error e) ↔
         (raw = [] ∨ (∃ row ∈ raw, row.length ≠ (raw.head?.getD []).length) ∨
          parse_grid raw = .ok (raw, []))) ∧
    (∀ (raw : List (List Char)) (dict : List Word) (forbid : Bool)
       (slots : List Slot),
       parse_grid raw = .ok (raw, slots) → slots ≠ [] →
       (∀ w ∈ dict, '.' ∉ upper (strip w)) →
       ¬ Solvable raw slots (build_domains slots dict) →
       ∃ g' a', solve_crossword raw dict forbid = .ok (false, g', a', slots)) := by
  constructor
  · intro raw dict forbid
    constructor
    · rintro ⟨e, he⟩
      cases hp : parse_grid raw with
      | error e' =>
        rcases (parse_error_iff raw).mp ⟨e', hp⟩ with h | h
        · exact Or.inl h
        · exact Or.inr (Or.inl h)
      | ok p =>
        obtain ⟨g0, sl⟩ := p
        have hg0 : g0 = raw := (parse_grid_ok raw g0 sl hp).1
        cases sl with
        | nil => exact Or.inr (Or.inr (by rw [hg0]))
        | cons s ss =>
          exfalso
          obtain ⟨b, g2, a2, hok⟩ :=
            solve_ok_of_slots raw dict forbid g0 (s :: ss) hp (by simp)
          rw [hok] at he
          cases he
    · intro hor
      rcases hor with h | h | h
      · subst h
        exact ⟨"empty grid", rfl⟩
      · obtain ⟨e, hp⟩ := (parse_error_iff raw).mpr (Or.inr h)
        exact ⟨e, solve_error_of_parse raw dict forbid e hp⟩
      · refine ⟨"no slots of length at least 2", ?_⟩
        unfold solve_crossword
        rw [h]
        rfl
  · intro raw dict forbid slots hp hne hdict hns
    obtain ⟨b, g', a', hok⟩ := solve_ok_of_slots raw dict forbid raw slots hp hne
    cases b with
    | false => exact ⟨g', a', hok⟩
    | true =>
      exact absurd
        (solve_success_solvable raw dict forbid g' a' slots hdict hok) hns

/-- Witness for C8 at a concrete unsolvable input. -/
theorem C8_validation_and_failure_witness :
    (parse_grid [['A', 'B']] = .ok ([['A', 'B']], [Slot.mk 0 [(0, 0), (0, 1)]]) ∧
     ([Slot.mk 0 [(0, 0), (0, 1)]] : List Slot) ≠ [] ∧
     (∀ w ∈ ([] : List Word), '.' ∉ upper (strip w)) ∧
     ¬ Solvable [['A', 'B']] [Slot.mk 0 [(0, 0), (0, 1)]]
       (build_domains [Slot.mk 0 [(0, 0), (0, 1)]] [])) ∧
    ∃ g' a', solve_crossword [['A', 'B']] [] false =
      .ok (false, g', a', [Slot.mk 0 [(0, 0), (0, 1)]]) := by
  have hns : ¬ Solvable [['A', 'B']] [Slot.mk 0 [(0, 0), (0, 1)]]
      (build_domains [Slot.mk 0 [(0, 0), (0, 1)]] []) := by
    rintro ⟨f, hf⟩
    have h0 := (hf (Slot.mk 0 [(0, 0), (0, 1)]) (by decide)).1
    have he : lookupD (build_domains [Slot.mk 0 [(0, 0), (0, 1)]] [])
        (Slot.mk 0 [(0, 0), (0, 1)]).id = [] := by decide
    rw [he] at h0
    cases h0
  exact ⟨⟨by decide, by decide, by decide, hns⟩,
    C8_validation_and_failure.2 [['A', 'B']] [] false
      [Slot.mk 0 [(0, 0), (0, 1)]] (by decide) (by decide) (by decide) hns⟩

end Crossword
